import Mathlib

/-!
Verification development for the repopackager scan/discovery pipeline.

The embedding translates the TypeScript sources (common.ts: parseGuid,
isDirectory, doesPathExist, EEQueue; core module: Package, Repository,
PackageManager) into executable Lean definitions.  Filesystem state is a
snapshot tree, the regular-expression collaborator is an explicit engine
value, asynchronous sequencing is the source's own strictly sequential
awaiting (so plain function composition), and the event-emitter surface is
reified as lists of emitted events.  Machine dates are modelled as natural
number timestamps passed in by the driver.
-/

namespace RepoPackager

/-- Filesystem paths, as lists of components.  The source manipulates
string paths through the path collaborator (join, resolve, dirname,
basename, and prefix-removal via String.replace); on component lists these
are list append, dropLast, getLast and prefix drop. -/
abbrev FPath := List String

/-- Render a component path the way the source's resolved absolute string
paths look, for regular-expression filter tests against full names. -/
def joinP (p : FPath) : String :=
  p.foldl (fun acc c => acc ++ ("/") ++ c) ("")

/-- JavaScript truthiness of a possibly-undefined string field: undefined
(none) and the empty string are falsy, every other string is truthy. -/
def truthy : Option String → Bool
  | none => false
  | some s => !(s == (""))

/-- Prefix test on character lists (an executable model of the string
prefix primitive, kept kernel-reducible). -/
def listPrefixOf : List Char → List Char → Bool
  | [], _ => true
  | _ :: _, [] => false
  | a :: as, b :: bs => (a == b) && listPrefixOf as bs

/-- Infix (substring) test on character lists. -/
def listInfix (pat : List Char) : List Char → Bool
  | [] => listPrefixOf pat []
  | c :: cs => listPrefixOf pat (c :: cs) || listInfix pat cs

/-- Substring test used by the demo regular-expression engine. -/
def strContains (s pat : String) : Bool :=
  listInfix pat.data s.data

/-- Suffix test used by the demo regular-expression engine. -/
def strEndsWith (s pat : String) : Bool :=
  listPrefixOf pat.data.reverse s.data.reverse

/-- Whitespace predicate of the trim primitive's model. -/
def isWsChar (c : Char) : Bool :=
  c == (' ') || c == ('\n') || c == ('\t') || c == ('\r')

/-- Executable model of String.prototype.trim: strip leading and
trailing whitespace. -/
def jsTrim (s : String) : String :=
  String.mk (((s.data.dropWhile isWsChar).reverse.dropWhile isWsChar).reverse)

/-- Split a character list at newline characters. -/
def chSplitLines : List Char → List (List Char)
  | [] => [[]]
  | c :: cs =>
    if c == ('\n') then [] :: chSplitLines cs
    else
      match chSplitLines cs with
      | l :: ls => (c :: l) :: ls
      | [] => [[c]]

/-- Model of the JavaScript regular-expression collaborator.  matchI
models str.match(new RegExp(pat, "i")): on success it returns the match
array (whole match first, capture groups after).  test models
str.match(pat) used as a boolean filter (no flags). -/
structure RegexEngine where
  matchI : String → String → Option (List String)
  test : String → String → Bool

mutual
/-- Snapshot of the filesystem collaborator: a file with its text
contents, or a directory with an ordered entry list (readdir order).
The entry list is its own inductive so that the traversals below are
structurally recursive and kernel-reducible. -/
inductive FSNode where
  | file (contents : String)
  | dir (entries : FSEntries)
/-- Ordered directory entries (readdir order). -/
inductive FSEntries where
  | nil
  | cons (name : String) (node : FSNode) (rest : FSEntries)
end

/-- Build a directory entry list from an ordinary list. -/
def entriesOf : List (String × FSNode) → FSEntries
  | [] => FSEntries.nil
  | (n, node) :: rest => FSEntries.cons n node (entriesOf rest)

/-- Build a directory node from an ordinary entry list. -/
def FSNode.dirL (l : List (String × FSNode)) : FSNode :=
  FSNode.dir (entriesOf l)

/-- Find a directory entry by name. -/
def lookupEntry : FSEntries → String → Option FSNode
  | FSEntries.nil, _ => none
  | FSEntries.cons n node rest, k =>
    if n == k then some node else lookupEntry rest k

/-- Resolve a path inside a filesystem snapshot (the stat collaborator). -/
def FSNode.lookup : FSNode → FPath → Option FSNode
  | node, [] => some node
  | FSNode.dir entries, c :: cs =>
    match lookupEntry entries c with
    | some node => FSNode.lookup node cs
    | none => none
  | FSNode.file _, _ :: _ => none

/-- Model of common.ts doesPathExist.  fs.stat's callback runs
if (err) reject(false); resolve(stats && stats.isFile()) — so a path that
does not stat REJECTS the promise with the value false (the error
branch), and only a stat'able path resolves, to isFile(). -/
def doesPathExist (fs : FSNode) (p : FPath) : Except Bool Bool :=
  match fs.lookup p with
  | none => Except.error false
  | some (FSNode.file _) => Except.ok true
  | some (FSNode.dir _) => Except.ok false

/-- Model of fsAsync.readFileAsync on the snapshot: contents of a file,
none when the path is absent or a directory. -/
def readFileA (fs : FSNode) (p : FPath) : Option String :=
  match fs.lookup p with
  | some (FSNode.file s) => some s
  | _ => none

/-- A JavaScript exception escaping an awaited call (unhandled promise
rejection): the walk has no try/catch around its first two steps. -/
inductive JsErr where
  | statRejectedFalse
  | readFailed
  | typeErr

/-- Hashtable lookup (JS property read on a string-keyed object). -/
def hget {α : Type} (l : List (String × α)) (k : String) : Option α :=
  match l.find? (fun kv => kv.1 == k) with
  | some kv => some kv.2
  | none => none

/-- Hashtable write: overwrite in place when the key exists, append
otherwise (JS property insertion order). -/
def hset {α : Type} (l : List (String × α)) (k : String) (v : α) :
    List (String × α) :=
  match l with
  | [] => [(k, v)]
  | kv :: rest => if kv.1 == k then (k, v) :: rest else kv :: hset rest k v

/-- Hashtable delete (assigning undefined to a JS property). -/
def hdel {α : Type} (l : List (String × α)) (k : String) :
    List (String × α) :=
  l.filter (fun kv => !(kv.1 == k))

/-- JS object keys are strings; an undefined key coerces to the string
"undefined". -/
def jsKey : Option String → String
  | none => "undefined"
  | some s => s

/-- Field-extraction rules (configParseRules): a named property is either
a regular-expression pattern string, or (typeof === "object") a nested
rule group.  JS object iteration order is the list order. -/
inductive Rule where
  | pattern (pat : String)
  | group (rules : List (String × Rule))

/-- The Package class.  Extracted fields name and guid start out
undefined (none); props models assignments this[property] = v for any
other configured property name. -/
structure Package where
  configFile : String
  absoluteDirPath : FPath
  path : FPath
  rawConfigContents : Option String := none
  hasWalked : Bool := false
  lastWalk : Option Nat := none
  name : Option String := none
  guid : Option String := none
  items : List FPath := []
  props : List (String × String) := []
deriving Repr, DecidableEq

/-- Model of new Package(repoPath, packagePath): basename becomes the
config file name, dirname the absolute directory, and the package path is
the directory with the repository prefix removed. -/
def Package.create (repoPath packagePath : FPath) : Package :=
  { configFile := (packagePath.getLast?).getD (""),
    absoluteDirPath := packagePath.dropLast,
    path := packagePath.dropLast.drop repoPath.length }

/-- Model of the isValid getter: if (this.guid && this.name) — both
fields defined and non-empty under JS truthiness. -/
def Package.isValid (p : Package) : Bool :=
  truthy p.guid && truthy p.name

/-- Dynamic property write this[property] = v; name and guid are the
declared fields the configured rules target. -/
def Package.setProp (p : Package) (k v : String) : Package :=
  if k == ("name") then { p with name := some v }
  else if k == ("guid") then { p with guid := some v }
  else { p with props := hset p.props k v }

/-- Dynamic property write of undefined, this[property] = undefined (the
value an awaited _parse call produces). -/
def Package.clearProp (p : Package) (k : String) : Package :=
  if k == ("name") then { p with name := none }
  else if k == ("guid") then { p with guid := none }
  else { p with props := hdel p.props k }

/-- Result of the _parse recursion: normal completion, a TypeError (the
raw contents are undefined when a pattern rule dereferences them), or
fuel exhaustion — the fuel-indexed approximation of the source's
unbounded recursion, so that a run answering outOfFuel at every fuel is a
non-terminating run of the source. -/
inductive ParseOut where
  | outOfFuel
  | typeErr
  | done (p : Package)

/-- Model of Package._parse's property loop over the rule mapping.  The
(typeof rules[property] === "object") branch executes
this[property] = await this._parse(rules) — it recurses on the WHOLE
rules mapping allRules, not on the nested group, and assigns the call's
undefined result to the property.  The initial guard
(this._rawConfigContents === null) can never fire: the field starts out
undefined and is only ever set to a read string, and undefined !== null;
a pattern rule reached with undefined contents throws a TypeError from
undefined.match.  The loop body is parseStep, with the awaited recursive
call abstracted as recur; parseGo ties the knot with a fuel index. -/
def parseStep (re : RegexEngine) (recur : Package → ParseOut) :
    Package → List (String × Rule) → ParseOut
  | p, [] => ParseOut.done p
  | p, (prop, Rule.pattern pat) :: rest =>
    match p.rawConfigContents with
    | none => ParseOut.typeErr
    | some raw =>
      match re.matchI pat raw with
      | none => parseStep re recur p rest
      | some m => parseStep re recur (p.setProp prop (jsTrim (m.getD 1 ("")))) rest
  | p, (prop, Rule.group _) :: rest =>
    match recur p with
    | ParseOut.done p2 => parseStep re recur (p2.clearProp prop) rest
    | o => o

/-- The fuel-indexed model of _parse: at fuel zero the awaited nested
call stands for a computation that has not finished; at positive fuel it
is the same loop one fuel level lower, always over the whole mapping
allRules as the source writes it. -/
def parseGo (re : RegexEngine) (allRules : List (String × Rule)) :
    Nat → Package → List (String × Rule) → ParseOut
  | 0, p, l => parseStep re (fun _ => ParseOut.outOfFuel) p l
  | Nat.succ f, p, l =>
    parseStep re (fun q => parseGo re allRules f q allRules) p l

/-- Model of Package._readConfigFile: stat the joined config path (an
awaited doesPathExist rejection escapes), and read the file when the
contents are still falsy and the path resolves to a file. -/
def Package.readConfigFile (p : Package) (fs : FSNode) : Except JsErr Package :=
  let absolutePath := p.absoluteDirPath ++ [p.configFile]
  match doesPathExist fs absolutePath with
  | Except.error _ => Except.error JsErr.statRejectedFalse
  | Except.ok ex =>
    if !(truthy p.rawConfigContents) && ex then
      match readFileA fs absolutePath with
      | some s => Except.ok { p with rawConfigContents := some s }
      | none => Except.error JsErr.readFailed
    else Except.ok p

/-- Model of Package._search's recursive body over one directory's entry
list.  Every recursive _search invocation begins with this.items = [],
so descending into a subdirectory discards the items collected so far;
the caller then continues pushing onto the refilled field.  A file whose
full name passes the filter is recorded relative to the package
directory (String.replace of the directory prefix). -/
def searchEntries (re : RegexEngine) (absDir : FPath) (filter : String) :
    FSEntries → FPath → List FPath → List FPath
  | FSEntries.nil, _, items => items
  | FSEntries.cons n (FSNode.dir es) rest, dirPath, _ =>
    searchEntries re absDir filter rest dirPath
      (searchEntries re absDir filter es (dirPath ++ [n]) [])
  | FSEntries.cons n (FSNode.file _) rest, dirPath, items =>
    if re.test (joinP (dirPath ++ [n])) filter then
      searchEntries re absDir filter rest dirPath
        (items ++ [(dirPath ++ [n]).drop absDir.length])
    else searchEntries re absDir filter rest dirPath items

/-- Model of the top-level Package._search() call from walk: directory
defaults to the package directory, the filter defaults to ".+", items is
reset; a readdir failure is caught and logged, leaving items as the
just-reset empty list. -/
def Package.searchRun (p : Package) (re : RegexEngine) (fs : FSNode) : Package :=
  match fs.lookup p.absoluteDirPath with
  | some (FSNode.dir entries) =>
    { p with items := searchEntries re p.absoluteDirPath (".+") entries p.absoluteDirPath [] }
  | _ => { p with items := [] }

/-- Events a Package emits during walk; the payload is the package object
itself (the source emits this; listeners run synchronously, and the
stored reference observes the final field values). -/
inductive PkgEvent where
  | missingReq (p : Package)
  | created (p : Package)
  | updated (p : Package)
deriving Repr, DecidableEq

/-- Outcome of the read/parse/list prefix of walk (the three awaited
calls before the validity check): an escaped exception, a
non-terminating parse, or the package after extraction and listing. -/
inductive WalkPre where
  | diverges
  | throws (e : JsErr)
  | done (p : Package)

/-- Outcome of a full Package.walk: an escaped exception, a
non-terminating parse, or normal completion with the emitted events. -/
inductive WalkOutcome where
  | diverges
  | throws (e : JsErr)
  | completes (p : Package) (evts : List PkgEvent)

/-- The read/parse/list prefix of Package.walk: await _readConfigFile,
await _parse(rules), await _search(), each sequenced on the previous.
None of these steps reads the clock, which is what walk's later
timestamping step uses. -/
def Package.walkPre (p : Package) (re : RegexEngine) (fuel : Nat) (fs : FSNode)
    (rules : List (String × Rule)) : WalkPre :=
  match p.readConfigFile fs with
  | Except.error e => WalkPre.throws e
  | Except.ok p1 =>
    match parseGo re rules fuel p1 rules with
    | ParseOut.outOfFuel => WalkPre.diverges
    | ParseOut.typeErr => WalkPre.throws JsErr.typeErr
    | ParseOut.done p2 => WalkPre.done (p2.searchRun re fs)

/-- Model of Package.walk(rules): after the read/parse/list prefix, an
invalid package emits the missing-requirement error and returns with no
further action; otherwise the package emits updated (subsequent walks)
or created (first walk, setting _hasWalked), and _lastWalk is stamped
after the emit on the same object the listeners hold. -/
def Package.walk (p : Package) (re : RegexEngine) (fuel : Nat) (fs : FSNode)
    (now : Nat) (rules : List (String × Rule)) : WalkOutcome :=
  match p.walkPre re fuel fs rules with
  | WalkPre.diverges => WalkOutcome.diverges
  | WalkPre.throws e => WalkOutcome.throws e
  | WalkPre.done p3 =>
    if !p3.isValid then
      WalkOutcome.completes p3 [PkgEvent.missingReq p3]
    else if p3.hasWalked then
      WalkOutcome.completes { p3 with lastWalk := some now }
        [PkgEvent.updated { p3 with lastWalk := some now }]
    else
      WalkOutcome.completes { p3 with hasWalked := true, lastWalk := some now }
        [PkgEvent.created { p3 with hasWalked := true, lastWalk := some now }]

/-- Events a Repository emits, tagged by the class that raised them.
scanning, ready and packageAdded are the lifecycle signals; the error
variants carry which error object was emitted ("error" events for a
traversal failure, a duplicate GUID, and a re-emitted package
missing-requirement error respectively). -/
inductive RepoEvent where
  | scanning
  | ready
  | packageAdded (p : Package)
  | errorFs
  | errorDuplicate (p : Package)
  | errorMissing (p : Package)
deriving Repr, DecidableEq

/-- The Repository class.  walkQueue is the persistent EEQueue's backing
array; emptiedListeners counts the one-shot "emptied" listeners
currently registered on it (scan registers one per call with once). -/
structure Repository where
  name : String
  dir : FPath
  configFileName : String
  configParseRules : List (String × Rule)
  packages : List (String × Package) := []
  invalidPackages : List Package := []
  hasCompletedScan : Bool := false
  lastscan : Option Nat := none
  walkQueue : List FPath := []
  emptiedListeners : Nat := 0

/-- Model of Repository._addPkg: if (this.packages[pkg.guid]) — a
Package object stored under the guid key is truthy — the new package is
pushed onto invalidPackages and a not-unique error is emitted, leaving
the index untouched; otherwise the package is indexed under its guid and
packageAdded is emitted. -/
def Repository.addPkg (r : Repository) (pkg : Package) :
    Repository × List RepoEvent :=
  match hget r.packages (jsKey pkg.guid) with
  | some _ =>
    ({ r with invalidPackages := r.invalidPackages ++ [pkg] },
     [RepoEvent.errorDuplicate pkg])
  | none =>
    ({ r with packages := hset r.packages (jsKey pkg.guid) pkg },
     [RepoEvent.packageAdded pkg])

/-- Model of Repository._onPkgError: an invalid package is pushed onto
invalidPackages, and the error is re-emitted at repository scope. -/
def Repository.onPkgError (r : Repository) (pkg : Package) :
    Repository × List RepoEvent :=
  (if !pkg.isValid then { r with invalidPackages := r.invalidPackages ++ [pkg] }
   else r,
   [RepoEvent.errorMissing pkg])

/-- Dispatch of one event a walked package emitted: _walkPkgDir
subscribes _onPkgError to "error" and _onPkgCreated (which calls
_addPkg) to "created"; nothing subscribes to "updated", so an updated
event is dropped. -/
def Repository.handlePkgEvent (r : Repository) :
    PkgEvent → Repository × List RepoEvent
  | PkgEvent.missingReq p => r.onPkgError p
  | PkgEvent.created p => r.addPkg p
  | PkgEvent.updated _ => (r, [])

/-- Dispatch of a walked package's emitted events in order. -/
def Repository.handlePkgEvents (r : Repository) :
    List PkgEvent → Repository × List RepoEvent
  | [] => (r, [])
  | e :: es =>
    let h := r.handlePkgEvent e
    let t := h.1.handlePkgEvents es
    (t.1, h.2 ++ t.2)

/-- Model of Repository._onWalkQueueEmptied: emit "ready" only if no
scan has completed before, then record completion and the scan time. -/
def Repository.onWalkQueueEmptied (now : Nat) (r : Repository) :
    Repository × List RepoEvent :=
  ({ r with hasCompletedScan := true, lastscan := some now },
   if r.hasCompletedScan then [] else [RepoEvent.ready])

/-- Run the registered one-shot "emptied" listeners in sequence. -/
def runEmptiedHandlers (now : Nat) : Nat → Repository → Repository × List RepoEvent
  | 0, r => (r, [])
  | Nat.succ k, r =>
    let h := Repository.onWalkQueueEmptied now r
    let t := runEmptiedHandlers now k h.1
    (t.1, h.2 ++ t.2)

/-- The EEQueue "emptied" signal firing: every listener registered with
once is removed and run. -/
def fireEmptied (now : Nat) (r : Repository) : Repository × List RepoEvent :=
  runEmptiedHandlers now r.emptiedListeners { r with emptiedListeners := 0 }

/-- Outcome of a repository-scope operation that awaits package walks:
an escaped exception or divergence aborts scan itself. -/
inductive ScanOutcome where
  | diverges
  | throws (e : JsErr)
  | ok (r : Repository) (evts : List RepoEvent)

/-- Model of Repository._walkPkgDir: construct a fresh Package for the
dequeued file path, subscribe the error/created handlers, and await its
walk; the handlers run synchronously off the emitted events. -/
def Repository.walkPkgDir (r : Repository) (re : RegexEngine) (fuel : Nat)
    (fs : FSNode) (now : Nat) (file : FPath) : ScanOutcome :=
  let repoPackage := Package.create r.dir file
  match repoPackage.walk re fuel fs now r.configParseRules with
  | WalkOutcome.diverges => ScanOutcome.diverges
  | WalkOutcome.throws e => ScanOutcome.throws e
  | WalkOutcome.completes _ evts =>
    let h := r.handlePkgEvents evts
    ScanOutcome.ok h.1 h.2

/-- Model of Repository._processWalkQueue: while the queue length is
truthy, shift the head (EEQueue.next, which emits "emptied" the moment
the removal leaves the queue empty — BEFORE the dequeued candidate is
walked) and await _walkPkgDir on it.  The explicit list argument is the
queue contents, mirrored into the walkQueue field at each step. -/
def Repository.processWalkQueue (re : RegexEngine) (fuel : Nat) (fs : FSNode)
    (now : Nat) : List FPath → Repository → ScanOutcome
  | [], r => ScanOutcome.ok r []
  | c :: rest, r =>
    let shifted : Repository := { r with walkQueue := rest }
    let fe := if rest.isEmpty then fireEmptied now shifted else (shifted, [])
    match fe.1.walkPkgDir re fuel fs now c with
    | ScanOutcome.diverges => ScanOutcome.diverges
    | ScanOutcome.throws e => ScanOutcome.throws e
    | ScanOutcome.ok r2 e2 =>
      match Repository.processWalkQueue re fuel fs now rest r2 with
      | ScanOutcome.ok r3 e3 => ScanOutcome.ok r3 (fe.2 ++ e2 ++ e3)
      | o => o

/-- Model of Repository._populateWalkQueue's traversal over one
directory's entries: directories are descended unconditionally (the
isDirectory stat succeeds on snapshot entries), and a file whose full
resolved name matches the filter is pushed. -/
def populateEntries (re : RegexEngine) (filter : String) :
    FSEntries → FPath → List FPath
  | FSEntries.nil, _ => []
  | FSEntries.cons n (FSNode.dir es) rest, dirPath =>
    populateEntries re filter es (dirPath ++ [n]) ++
      populateEntries re filter rest dirPath
  | FSEntries.cons n (FSNode.file _) rest, dirPath =>
    (if re.test (joinP (dirPath ++ [n])) filter then [dirPath ++ [n]] else []) ++
      populateEntries re filter rest dirPath

/-- The effective filter: this.packageDefinition.configFileName ||
"README.md" (an empty configured name is falsy and falls back). -/
def Repository.walkFilter (r : Repository) : String :=
  if r.configFileName == ("") then "README.md" else r.configFileName

/-- Model of the top-level _populateWalkQueue() call from scan: readdir
of the repository root; a traversal error (the root does not stat as a
directory) is caught and emitted as a repository-scope "error". -/
def populate (re : RegexEngine) (fs : FSNode) (dir : FPath) (filter : String) :
    List FPath × List RepoEvent :=
  match fs.lookup dir with
  | some (FSNode.dir entries) => (populateEntries re filter entries dir, [])
  | _ => ([], [RepoEvent.errorFs])

/-- Model of Repository.scan(): emit "scanning", register a one-shot
"emptied" listener on the walk queue, await queue population, then await
the sequential drain. -/
def Repository.scan (r : Repository) (re : RegexEngine) (fuel : Nat)
    (fs : FSNode) (now : Nat) : ScanOutcome :=
  let r1 : Repository := { r with emptiedListeners := r.emptiedListeners + 1 }
  let pop := populate re fs r.dir r.walkFilter
  let r2 : Repository := { r1 with walkQueue := r1.walkQueue ++ pop.1 }
  match Repository.processWalkQueue re fuel fs now r2.walkQueue r2 with
  | ScanOutcome.ok r3 e3 => ScanOutcome.ok r3 (RepoEvent.scanning :: (pop.2 ++ e3))
  | o => o

/-- A sequence of scans of one Repository instance over (snapshot, time)
pairs; none when some scan does not complete normally. -/
def runScans (re : RegexEngine) (fuel : Nat) :
    List (FSNode × Nat) → Repository → Option (Repository × List RepoEvent)
  | [], r => some (r, [])
  | pr :: rest, r =>
    match r.scan re fuel pr.1 pr.2 with
    | ScanOutcome.ok r1 e1 =>
      match runScans re fuel rest r1 with
      | some out => some (out.1, e1 ++ out.2)
      | none => none
    | _ => none

/-- The event name a Repository emission goes out under on the
string-keyed emitter. -/
def RepoEvent.emitName : RepoEvent → String
  | RepoEvent.scanning => "scanning"
  | RepoEvent.ready => "ready"
  | RepoEvent.packageAdded _ => "packageAdded"
  | RepoEvent.errorFs => "error"
  | RepoEvent.errorDuplicate _ => "error"
  | RepoEvent.errorMissing _ => "error"

/-- Events the PackageManager re-emits (with the manager attached to the
payload) from its repository subscriptions. -/
inductive MgrEvent where
  | errorOut
  | repoReady
  | packageAddedOut
deriving Repr, DecidableEq

/-- The event names PackageManager.addRepository subscribes on the
constructed Repository: "error", "ready" and "addedPackage". -/
def managerSubscriptions : List String := ["error", "ready", "addedPackage"]

/-- What the handler bound to each subscribed name re-emits:
_onRepoError emits "error", _onRepoReady emits "repoReady", and
_onPackageAdded emits "packageAdded" with the manager added. -/
def managerHandlerFor : String → Option MgrEvent
  | "error" => some MgrEvent.errorOut
  | "ready" => some MgrEvent.repoReady
  | "addedPackage" => some MgrEvent.packageAddedOut
  | _ => none

/-- Delivery of one repository emission through the manager's
subscriptions: a handler runs only when its subscribed name equals the
emitted name. -/
def managerDispatch (e : RepoEvent) : List MgrEvent :=
  if managerSubscriptions.contains e.emitName then
    (managerHandlerFor e.emitName).toList
  else []

/-- Extract the repository of a normally completed scan. -/
def ScanOutcome.repoOr (d : Repository) : ScanOutcome → Repository
  | ScanOutcome.ok r _ => r
  | _ => d

/-- Extract the events of a normally completed scan. -/
def ScanOutcome.eventsOr : ScanOutcome → List RepoEvent
  | ScanOutcome.ok _ e => e
  | _ => []

/-- Extract the package of a normally completed walk. -/
def WalkOutcome.pkgOr (d : Package) : WalkOutcome → Package
  | WalkOutcome.completes p _ => p
  | _ => d

/-- Extract the events of a normally completed walk. -/
def WalkOutcome.eventsOr : WalkOutcome → List PkgEvent
  | WalkOutcome.completes _ e => e
  | _ => []

/-- Line-oriented capture function for the demo regular-expression
engine: a pattern of the form key(.*) captures, on the first line
beginning with key, the line's remainder as group 1. -/
def captureAfter (key raw : String) : Option (List String) :=
  ((chSplitLines raw.data).map String.mk).findSome? (fun line =>
    if listPrefixOf key.data line.data then
      some [line, line.drop key.length]
    else none)

/-- A concrete instance of the regular-expression collaborator covering
the pattern family the demo configurations use: patterns key(.*) capture
line remainders, the filter ".+" matches any non-empty name, and any
other filter matches by substring (the way a plain configFileName
pattern matches a resolved path). -/
def demoEngine : RegexEngine where
  matchI := fun pat raw =>
    if strEndsWith pat ("(.*)") then captureAfter (pat.dropRight 4) raw
    else none
  test := fun s pat => if pat == (".+") then !(s == ("")) else strContains s pat

/-- The demo extraction rules: a name pattern and a guid pattern. -/
def demoRules : List (String × Rule) :=
  [("name", Rule.pattern ("name: (.*)")), ("guid", Rule.pattern ("guid: (.*)"))]

/-- A two-package repository tree with distinct identifiers. -/
def demoFs : FSNode :=
  FSNode.dirL
    [("alpha", FSNode.dirL
        [("pkg.cfg", FSNode.file ("name: Alpha\nguid: A1")),
         ("a.txt", FSNode.file ("x"))]),
     ("beta", FSNode.dirL
        [("pkg.cfg", FSNode.file ("name: Beta\nguid: B2"))])]

/-- A fresh repository over the demo tree. -/
def demoRepo : Repository :=
  { name := "demo", dir := [], configFileName := "pkg.cfg",
    configParseRules := demoRules }

/-- The repository after a first scan of the demo tree at time 1. -/
def demoR1 : Repository :=
  (demoRepo.scan demoEngine 9 demoFs 1).repoOr demoRepo

/-- The events of the first demo scan. -/
def demoE1 : List RepoEvent :=
  (demoRepo.scan demoEngine 9 demoFs 1).eventsOr

/-- The repository after re-scanning the unchanged demo tree at time 2. -/
def demoR2 : Repository :=
  (demoR1.scan demoEngine 9 demoFs 2).repoOr demoR1

/-- The events of the second demo scan. -/
def demoE2 : List RepoEvent :=
  (demoR1.scan demoEngine 9 demoFs 2).eventsOr

/-- A placeholder package value for outcome extraction. -/
def dummyPackage : Package :=
  { configFile := "", absoluteDirPath := [], path := [] }

/-- The identifier keys of a package index. -/
def keysOf (l : List (String × Package)) : List String := l.map Prod.fst

/-- Whether every package stored in the index is valid. -/
def indexAllValid (r : Repository) : Bool :=
  r.packages.all (fun kv => kv.2.isValid)

/-- Number of "ready" signals in an event trace. -/
def countReady (evts : List RepoEvent) : Nat :=
  evts.countP (fun e => match e with | RepoEvent.ready => true | _ => false)

/-- Concatenation of a list-valued map over a list. -/
def catLists {α β : Type} (f : α → List β) : List α → List β
  | [] => []
  | a :: as => f a ++ catLists f as

/-- The packages carried by created events, in order. -/
def createdOf : List PkgEvent → List Package
  | [] => []
  | PkgEvent.created q :: es => q :: createdOf es
  | _ :: es => createdOf es

/-- The packages a fresh walk of one dequeued candidate signals
"created" (the walk _walkPkgDir performs). -/
def candCreated (re : RegexEngine) (fuel : Nat) (fs : FSNode) (now : Nat)
    (dir : FPath) (rules : List (String × Rule)) (c : FPath) : List Package :=
  createdOf ((Package.create dir c).walk re fuel fs now rules).eventsOr

/-- All packages signalled "created" while draining a queue of
candidates. -/
def queueCreated (re : RegexEngine) (fuel : Nat) (fs : FSNode) (now : Nat)
    (dir : FPath) (rules : List (String × Rule)) (cs : List FPath) : List Package :=
  catLists (candCreated re fuel fs now dir rules) cs

/-- The index transformation _addPkg performs on the packages hashtable:
keep it unchanged on a guid collision, insert otherwise. -/
def addKeyStep (l : List (String × Package)) (q : Package) :
    List (String × Package) :=
  match hget l (jsKey q.guid) with
  | some _ => l
  | none => hset l (jsKey q.guid) q

theorem mem_keys_of_hget_some {α : Type} {l : List (String × α)} {k : String}
    {v : α} (h : hget l k = some v) : k ∈ l.map Prod.fst := by
  induction l with
  | nil => simp [hget] at h
  | cons kv rest ih =>
    by_cases hk : kv.1 = k
    · simp [hk]
    · have hne : (kv.1 == k) = false := by simp [hk]
      simp only [hget, List.find?] at h
      rw [hne] at h
      simp only [List.map, List.mem_cons]
      exact Or.inr (ih (by simpa [hget] using h))

theorem hget_some_of_mem_keys {α : Type} {l : List (String × α)} {k : String}
    (h : k ∈ l.map Prod.fst) : ∃ v, hget l k = some v := by
  induction l with
  | nil => simp at h
  | cons kv rest ih =>
    by_cases hk : kv.1 = k
    · exact ⟨kv.2, by simp [hget, List.find?, hk]⟩
    · have hne : (kv.1 == k) = false := by simp [hk]
      have hmem : k ∈ rest.map Prod.fst := by
        rcases List.mem_cons.mp h with h1 | h1
        · exact absurd h1.symm hk
        · exact h1
      rcases ih hmem with ⟨v, hv⟩
      exact ⟨v, by simpa [hget, List.find?, hne] using hv⟩

theorem not_mem_keys_of_hget_none {α : Type} {l : List (String × α)} {k : String}
    (h : hget l k = none) : k ∉ l.map Prod.fst := by
  intro hmem
  rcases hget_some_of_mem_keys hmem with ⟨v, hv⟩
  rw [h] at hv
  exact Option.noConfusion hv

theorem hset_keys_of_absent {α : Type} {l : List (String × α)} {k : String}
    (v : α) (h : hget l k = none) :
    (hset l k v).map Prod.fst = l.map Prod.fst ++ [k] := by
  induction l with
  | nil => simp [hset]
  | cons kv rest ih =>
    by_cases hk : kv.1 = k
    · exfalso
      exact not_mem_keys_of_hget_none h (by simp [hk])
    · have hne : (kv.1 == k) = false := by simp [hk]
      simp only [hget, List.find?, hne] at h
      simp only [hset, hne, if_false, List.map, List.cons_append]
      rw [ih (by simpa [hget] using h)]

theorem hset_all {α : Type} (P : String × α → Bool) {l : List (String × α)}
    {k : String} {v : α} (hl : l.all P = true) (hv : P (k, v) = true) :
    (hset l k v).all P = true := by
  induction l with
  | nil => simpa [hset]
  | cons kv rest ih =>
    simp only [List.all_cons, Bool.and_eq_true] at hl
    by_cases hk : kv.1 = k
    · have : (kv.1 == k) = true := by simp [hk]
      simp [hset, this, hv, hl.2]
    · have hne : (kv.1 == k) = false := by simp [hk]
      simp [hset, hne, hl.1, ih hl.2]

theorem hget_cons {α : Type} (kv : String × α) (rest : List (String × α))
    (k : String) :
    hget (kv :: rest) k = if kv.1 == k then some kv.2 else hget rest k := by
  by_cases hk : kv.1 = k
  · have ht : (kv.1 == k) = true := by simp [hk]
    simp [hget, List.find?, ht]
  · have hne : (kv.1 == k) = false := by simp [hk]
    simp [hget, List.find?, hne]

theorem hget_hset_other {α : Type} {l : List (String × α)} {k k2 : String}
    (v : α) (h : ¬k = k2) : hget (hset l k2 v) k = hget l k := by
  have hnk : (k2 == k) = false := by
    simp only [beq_eq_false_iff_ne, ne_eq]
    exact fun hh => h hh.symm
  induction l with
  | nil =>
    simp [hset, hget, List.find?, hnk]
  | cons kv rest ih =>
    by_cases hk : kv.1 = k2
    · have ht : (kv.1 == k2) = true := by simp [hk]
      have hkv : (kv.1 == k) = false := by rw [hk]; exact hnk
      have hstep : hset (kv :: rest) k2 v = (k2, v) :: rest := by
        simp [hset, ht]
      rw [hstep, hget_cons, hget_cons]
      simp [hnk, hkv]
    · have hne : (kv.1 == k2) = false := by simp [hk]
      have hstep : hset (kv :: rest) k2 v = kv :: hset rest k2 v := by
        simp [hset, hne]
      rw [hstep, hget_cons, hget_cons, ih]

theorem addKeyStep_hget_stable {l : List (String × Package)} {k : String}
    {v : Package} (q : Package) (h : hget l k = some v) :
    hget (addKeyStep l q) k = some v := by
  unfold addKeyStep
  cases hq : hget l (jsKey q.guid) with
  | some _ => exact h
  | none =>
    have hne : ¬k = jsKey q.guid := by
      intro he
      rw [he] at h
      rw [h] at hq
      exact Option.noConfusion hq
    rw [hget_hset_other _ hne]
    exact h

theorem addKeyStep_keys_superset {l : List (String × Package)} {k : String}
    (q : Package) (h : k ∈ keysOf l) : k ∈ keysOf (addKeyStep l q) := by
  unfold addKeyStep
  cases hq : hget l (jsKey q.guid) with
  | some _ => exact h
  | none =>
    unfold keysOf
    rw [hset_keys_of_absent _ hq]
    exact List.mem_append_left _ h

theorem addKeyStep_keys_mem (l : List (String × Package)) (q : Package) :
    jsKey q.guid ∈ keysOf (addKeyStep l q) := by
  unfold addKeyStep
  cases hq : hget l (jsKey q.guid) with
  | some v => exact mem_keys_of_hget_some hq
  | none =>
    unfold keysOf
    rw [hset_keys_of_absent _ hq]
    simp

theorem addKeyStep_keys_subset {l : List (String × Package)} {k : String}
    (q : Package) (h : k ∈ keysOf (addKeyStep l q)) :
    k ∈ keysOf l ∨ k = jsKey q.guid := by
  unfold addKeyStep at h
  cases hq : hget l (jsKey q.guid) with
  | some _ =>
    rw [hq] at h
    exact Or.inl h
  | none =>
    rw [hq] at h
    unfold keysOf at h
    rw [hset_keys_of_absent _ hq] at h
    rcases List.mem_append.mp h with h1 | h1
    · exact Or.inl h1
    · exact Or.inr (by simpa using h1)

theorem addKeyStep_nodup {l : List (String × Package)} (q : Package)
    (h : (keysOf l).Nodup) : (keysOf (addKeyStep l q)).Nodup := by
  unfold addKeyStep
  cases hq : hget l (jsKey q.guid) with
  | some _ => exact h
  | none =>
    unfold keysOf at h ⊢
    rw [hset_keys_of_absent _ hq]
    have := not_mem_keys_of_hget_none hq
    simp [List.nodup_append, h, this]

theorem addKeyStep_all (P : String × Package → Bool)
    {l : List (String × Package)} {q : Package} (hl : l.all P = true)
    (hq : P (jsKey q.guid, q) = true) : (addKeyStep l q).all P = true := by
  unfold addKeyStep
  cases hget l (jsKey q.guid) with
  | some _ => exact hl
  | none => exact hset_all P hl hq

theorem setProp_flags (p : Package) (k v : String) :
    (p.setProp k v).lastWalk = p.lastWalk ∧ (p.setProp k v).hasWalked = p.hasWalked := by
  unfold Package.setProp
  split_ifs <;> simp

theorem clearProp_flags (p : Package) (k : String) :
    (p.clearProp k).lastWalk = p.lastWalk ∧ (p.clearProp k).hasWalked = p.hasWalked := by
  unfold Package.clearProp
  split_ifs <;> simp

theorem parseStep_flags (re : RegexEngine) (recur : Package → ParseOut)
    (hrec : ∀ (q q2 : Package), recur q = ParseOut.done q2 →
      q2.lastWalk = q.lastWalk ∧ q2.hasWalked = q.hasWalked) :
    ∀ (l : List (String × Rule)) (p p2 : Package),
      parseStep re recur p l = ParseOut.done p2 →
      p2.lastWalk = p.lastWalk ∧ p2.hasWalked = p.hasWalked := by
  intro l
  induction l with
  | nil =>
    intro p p2 h
    simp only [parseStep] at h
    cases h
    exact ⟨rfl, rfl⟩
  | cons hd rest ih =>
    rcases hd with ⟨prop, rl⟩
    intro p p2 h
    cases rl with
    | pattern pat =>
      simp only [parseStep] at h
      split at h
      · cases h
      · split at h
        · exact ih p p2 h
        · rename_i m hm
          have h2 := ih _ p2 h
          have h3 := setProp_flags p prop (jsTrim (m.getD 1 ("")))
          exact ⟨h2.1.trans h3.1, h2.2.trans h3.2⟩
    | group g =>
      simp only [parseStep] at h
      split at h
      · rename_i pmid hmid
        have h2 := ih _ p2 h
        have h3 := clearProp_flags pmid prop
        have h4 := hrec p pmid hmid
        exact ⟨(h2.1.trans h3.1).trans h4.1, (h2.2.trans h3.2).trans h4.2⟩
      · rename_i o hno
        exact absurd h (hno p2)

theorem parseGo_flags (re : RegexEngine) (allRules : List (String × Rule)) :
    ∀ (fuel : Nat) (p : Package) (l : List (String × Rule)) (p2 : Package),
      parseGo re allRules fuel p l = ParseOut.done p2 →
      p2.lastWalk = p.lastWalk ∧ p2.hasWalked = p.hasWalked := by
  intro fuel
  induction fuel with
  | zero =>
    intro p l p2 h
    simp only [parseGo] at h
    exact parseStep_flags re _ (fun q q2 hq => by cases hq) l p p2 h
  | succ f ih =>
    intro p l p2 h
    simp only [parseGo] at h
    exact parseStep_flags re _ (fun q q2 hq => ih q allRules q2 hq) l p p2 h

theorem readConfigFile_flags (p : Package) (fs : FSNode) {p1 : Package}
    (h : p.readConfigFile fs = Except.ok p1) :
    p1.lastWalk = p.lastWalk ∧ p1.hasWalked = p.hasWalked := by
  simp only [Package.readConfigFile] at h
  split at h
  · cases h
  · split at h
    · split at h
      · cases h
        exact ⟨rfl, rfl⟩
      · cases h
    · cases h
      exact ⟨rfl, rfl⟩

theorem searchRun_flags (p : Package) (re : RegexEngine) (fs : FSNode) :
    (p.searchRun re fs).lastWalk = p.lastWalk ∧
    (p.searchRun re fs).hasWalked = p.hasWalked ∧
    (p.searchRun re fs).guid = p.guid ∧
    (p.searchRun re fs).name = p.name := by
  unfold Package.searchRun
  cases fs.lookup p.absoluteDirPath with
  | none => simp
  | some node => cases node <;> simp

theorem walkPre_done_flags (p : Package) (re : RegexEngine) (fuel : Nat)
    (fs : FSNode) (rules : List (String × Rule)) {p3 : Package}
    (h : p.walkPre re fuel fs rules = WalkPre.done p3) :
    p3.lastWalk = p.lastWalk ∧ p3.hasWalked = p.hasWalked := by
  unfold Package.walkPre at h
  split at h
  · cases h
  · rename_i p1 hrc
    split at h
    · cases h
    · cases h
    · rename_i p2 hpg
      cases h
      have h1 := readConfigFile_flags p fs hrc
      have h2 := parseGo_flags re rules fuel p1 rules p2 hpg
      have h3 := searchRun_flags p2 re fs
      exact ⟨(h3.1.trans h2.1).trans h1.1, (h3.2.1.trans h2.2).trans h1.2⟩

theorem isValid_update_walked (p3 : Package) (now : Nat) :
    Package.isValid { p3 with hasWalked := true, lastWalk := some now } = p3.isValid := by
  simp [Package.isValid]

theorem isValid_update_time (p3 : Package) (now : Nat) :
    Package.isValid { p3 with lastWalk := some now } = p3.isValid := by
  simp [Package.isValid]

theorem walk_completes_cases {p : Package} {re : RegexEngine} {fuel : Nat}
    {fs : FSNode} {now : Nat} {rules : List (String × Rule)} {p4 : Package}
    {evts : List PkgEvent}
    (h : p.walk re fuel fs now rules = WalkOutcome.completes p4 evts) :
    ∃ p3, p.walkPre re fuel fs rules = WalkPre.done p3 ∧
      ((p3.isValid = false ∧ p4 = p3 ∧ evts = [PkgEvent.missingReq p3]) ∨
       (p3.isValid = true ∧ p3.hasWalked = true ∧
         p4 = { p3 with lastWalk := some now } ∧ evts = [PkgEvent.updated p4]) ∨
       (p3.isValid = true ∧ p3.hasWalked = false ∧
         p4 = { p3 with hasWalked := true, lastWalk := some now } ∧
         evts = [PkgEvent.created p4])) := by
  unfold Package.walk at h
  split at h
  · cases h
  · cases h
  · rename_i p3 hw
    refine ⟨p3, hw, ?_⟩
    split at h
    · rename_i hv
      cases h
      exact Or.inl ⟨by simpa using hv, rfl, rfl⟩
    · rename_i hv
      split at h
      · rename_i hwk
        cases h
        exact Or.inr (Or.inl ⟨by simpa using hv, hwk, rfl, rfl⟩)
      · rename_i hwk
        cases h
        exact Or.inr (Or.inr ⟨by simpa using hv, by simpa using hwk, rfl, rfl⟩)

theorem walk_created_valid {p : Package} {re : RegexEngine} {fuel : Nat}
    {fs : FSNode} {now : Nat} {rules : List (String × Rule)} {p4 : Package}
    {evts : List PkgEvent} {c : Package}
    (h : p.walk re fuel fs now rules = WalkOutcome.completes p4 evts)
    (hc : PkgEvent.created c ∈ evts) : c.isValid = true := by
  rcases walk_completes_cases h with ⟨p3, _, hcase⟩
  rcases hcase with ⟨_, _, he⟩ | ⟨_, _, _, he⟩ | ⟨hv, _, hp4, he⟩
  · rw [he] at hc
    simp at hc
  · rw [he] at hc
    simp at hc
  · rw [he] at hc
    simp at hc
    rw [hc, hp4, isValid_update_walked]
    exact hv

theorem addPkg_spec (r : Repository) (q : Package) :
    (r.addPkg q).1.packages = addKeyStep r.packages q ∧
    (r.addPkg q).1.dir = r.dir ∧
    (r.addPkg q).1.configFileName = r.configFileName ∧
    (r.addPkg q).1.configParseRules = r.configParseRules ∧
    (r.addPkg q).1.walkQueue = r.walkQueue ∧
    (r.addPkg q).1.hasCompletedScan = r.hasCompletedScan ∧
    (r.addPkg q).1.lastscan = r.lastscan ∧
    (r.addPkg q).1.emptiedListeners = r.emptiedListeners := by
  cases hq : hget r.packages (jsKey q.guid) <;>
    simp [Repository.addPkg, addKeyStep, hq]

theorem onPkgError_spec (r : Repository) (q : Package) :
    (r.onPkgError q).1.packages = r.packages ∧
    (r.onPkgError q).1.dir = r.dir ∧
    (r.onPkgError q).1.configFileName = r.configFileName ∧
    (r.onPkgError q).1.configParseRules = r.configParseRules ∧
    (r.onPkgError q).1.walkQueue = r.walkQueue ∧
    (r.onPkgError q).1.hasCompletedScan = r.hasCompletedScan ∧
    (r.onPkgError q).1.lastscan = r.lastscan ∧
    (r.onPkgError q).1.emptiedListeners = r.emptiedListeners := by
  unfold Repository.onPkgError
  split_ifs <;> simp

theorem handlePkgEvent_spec (r : Repository) (e : PkgEvent) :
    (r.handlePkgEvent e).1.packages = (createdOf [e]).foldl addKeyStep r.packages ∧
    (r.handlePkgEvent e).1.dir = r.dir ∧
    (r.handlePkgEvent e).1.configFileName = r.configFileName ∧
    (r.handlePkgEvent e).1.configParseRules = r.configParseRules ∧
    (r.handlePkgEvent e).1.walkQueue = r.walkQueue ∧
    (r.handlePkgEvent e).1.hasCompletedScan = r.hasCompletedScan ∧
    (r.handlePkgEvent e).1.lastscan = r.lastscan ∧
    (r.handlePkgEvent e).1.emptiedListeners = r.emptiedListeners := by
  cases e with
  | created q =>
    have h := addPkg_spec r q
    simpa [Repository.handlePkgEvent, createdOf] using h
  | missingReq q =>
    have h := onPkgError_spec r q
    simpa [Repository.handlePkgEvent, createdOf] using h
  | updated q =>
    simp [Repository.handlePkgEvent, createdOf]

theorem handlePkgEvents_step (r : Repository) (e : PkgEvent) (es : List PkgEvent) :
    r.handlePkgEvents (e :: es) =
      (((r.handlePkgEvent e).1.handlePkgEvents es).1,
       (r.handlePkgEvent e).2 ++ ((r.handlePkgEvent e).1.handlePkgEvents es).2) := rfl

theorem createdOf_cons (e : PkgEvent) (es : List PkgEvent) :
    createdOf (e :: es) =
      (match e with | PkgEvent.created q => [q] | _ => []) ++ createdOf es := by
  cases e <;> simp [createdOf]

theorem handlePkgEvents_spec (es : List PkgEvent) : ∀ (r : Repository),
    (r.handlePkgEvents es).1.packages = (createdOf es).foldl addKeyStep r.packages ∧
    (r.handlePkgEvents es).1.dir = r.dir ∧
    (r.handlePkgEvents es).1.configFileName = r.configFileName ∧
    (r.handlePkgEvents es).1.configParseRules = r.configParseRules ∧
    (r.handlePkgEvents es).1.walkQueue = r.walkQueue ∧
    (r.handlePkgEvents es).1.hasCompletedScan = r.hasCompletedScan ∧
    (r.handlePkgEvents es).1.lastscan = r.lastscan ∧
    (r.handlePkgEvents es).1.emptiedListeners = r.emptiedListeners := by
  induction es with
  | nil =>
    intro r
    simp [Repository.handlePkgEvents, createdOf]
  | cons e es ih =>
    intro r
    rw [handlePkgEvents_step]
    have h1 := handlePkgEvent_spec r e
    have h2 := ih (r.handlePkgEvent e).1
    refine ⟨?_, (h2.2.1.trans h1.2.1), (h2.2.2.1.trans h1.2.2.1),
      (h2.2.2.2.1.trans h1.2.2.2.1), (h2.2.2.2.2.1.trans h1.2.2.2.2.1),
      (h2.2.2.2.2.2.1.trans h1.2.2.2.2.2.1),
      (h2.2.2.2.2.2.2.1.trans h1.2.2.2.2.2.2.1),
      (h2.2.2.2.2.2.2.2.trans h1.2.2.2.2.2.2.2)⟩
    rw [h2.1, h1.1, createdOf_cons]
    cases e <;> simp [createdOf, List.foldl_append]

theorem onWalkQueueEmptied_spec (now : Nat) (r : Repository) :
    (Repository.onWalkQueueEmptied now r).1.packages = r.packages ∧
    (Repository.onWalkQueueEmptied now r).1.invalidPackages = r.invalidPackages ∧
    (Repository.onWalkQueueEmptied now r).1.dir = r.dir ∧
    (Repository.onWalkQueueEmptied now r).1.configFileName = r.configFileName ∧
    (Repository.onWalkQueueEmptied now r).1.configParseRules = r.configParseRules ∧
    (Repository.onWalkQueueEmptied now r).1.walkQueue = r.walkQueue ∧
    (Repository.onWalkQueueEmptied now r).1.emptiedListeners = r.emptiedListeners := by
  simp [Repository.onWalkQueueEmptied]

theorem runEmptiedHandlers_spec (now : Nat) (n : Nat) : ∀ (r : Repository),
    (runEmptiedHandlers now n r).1.packages = r.packages ∧
    (runEmptiedHandlers now n r).1.invalidPackages = r.invalidPackages ∧
    (runEmptiedHandlers now n r).1.dir = r.dir ∧
    (runEmptiedHandlers now n r).1.configFileName = r.configFileName ∧
    (runEmptiedHandlers now n r).1.configParseRules = r.configParseRules ∧
    (runEmptiedHandlers now n r).1.walkQueue = r.walkQueue ∧
    (runEmptiedHandlers now n r).1.emptiedListeners = r.emptiedListeners := by
  induction n with
  | zero => intro r; simp [runEmptiedHandlers]
  | succ k ih =>
    intro r
    have hstep : runEmptiedHandlers now (k + 1) r =
        ((runEmptiedHandlers now k (Repository.onWalkQueueEmptied now r).1).1,
         (Repository.onWalkQueueEmptied now r).2 ++
           (runEmptiedHandlers now k (Repository.onWalkQueueEmptied now r).1).2) := rfl
    rw [hstep]
    have h1 := onWalkQueueEmptied_spec now r
    have h2 := ih (Repository.onWalkQueueEmptied now r).1
    exact ⟨h2.1.trans h1.1, h2.2.1.trans h1.2.1, h2.2.2.1.trans h1.2.2.1,
      h2.2.2.2.1.trans h1.2.2.2.1, h2.2.2.2.2.1.trans h1.2.2.2.2.1,
      h2.2.2.2.2.2.1.trans h1.2.2.2.2.2.1, h2.2.2.2.2.2.2.trans h1.2.2.2.2.2.2⟩

theorem fireEmptied_spec (now : Nat) (r : Repository) :
    (fireEmptied now r).1.packages = r.packages ∧
    (fireEmptied now r).1.invalidPackages = r.invalidPackages ∧
    (fireEmptied now r).1.dir = r.dir ∧
    (fireEmptied now r).1.configFileName = r.configFileName ∧
    (fireEmptied now r).1.configParseRules = r.configParseRules ∧
    (fireEmptied now r).1.walkQueue = r.walkQueue := by
  unfold fireEmptied
  have h := runEmptiedHandlers_spec now r.emptiedListeners
    { r with emptiedListeners := 0 }
  exact ⟨h.1, h.2.1, h.2.2.1, h.2.2.2.1, h.2.2.2.2.1, h.2.2.2.2.2.1⟩

theorem foldl_addKeyStep_keys_superset (qs : List Package) :
    ∀ (l : List (String × Package)) (k : String), k ∈ keysOf l →
      k ∈ keysOf (qs.foldl addKeyStep l) := by
  induction qs with
  | nil => intro l k h; simpa using h
  | cons q qs ih =>
    intro l k h
    rw [List.foldl_cons]
    exact ih _ _ (addKeyStep_keys_superset q h)

theorem foldl_addKeyStep_keys_mem (qs : List Package) :
    ∀ (l : List (String × Package)) (q : Package), q ∈ qs →
      jsKey q.guid ∈ keysOf (qs.foldl addKeyStep l) := by
  induction qs with
  | nil => intro l q h; simp at h
  | cons q0 qs ih =>
    intro l q h
    rw [List.foldl_cons]
    rcases List.mem_cons.mp h with h1 | h1
    · subst h1
      exact foldl_addKeyStep_keys_superset qs _ _ (addKeyStep_keys_mem l q)
    · exact ih _ _ h1

theorem foldl_addKeyStep_keys_subset (qs : List Package) :
    ∀ (l : List (String × Package)) (k : String),
      k ∈ keysOf (qs.foldl addKeyStep l) →
      k ∈ keysOf l ∨ k ∈ qs.map (fun q => jsKey q.guid) := by
  induction qs with
  | nil => intro l k h; exact Or.inl (by simpa using h)
  | cons q qs ih =>
    intro l k h
    rw [List.foldl_cons] at h
    rcases ih _ _ h with h1 | h1
    · rcases addKeyStep_keys_subset q h1 with h2 | h2
      · exact Or.inl h2
      · exact Or.inr (by simp [h2])
    · refine Or.inr ?_
      rw [List.map_cons]
      exact List.mem_cons_of_mem _ h1

theorem foldl_addKeyStep_hget_stable (qs : List Package) :
    ∀ (l : List (String × Package)) (k : String) (v : Package),
      hget l k = some v → hget (qs.foldl addKeyStep l) k = some v := by
  induction qs with
  | nil => intro l k v h; simpa using h
  | cons q qs ih =>
    intro l k v h
    rw [List.foldl_cons]
    exact ih _ _ _ (addKeyStep_hget_stable q h)

theorem foldl_addKeyStep_nodup (qs : List Package) :
    ∀ (l : List (String × Package)), (keysOf l).Nodup →
      (keysOf (qs.foldl addKeyStep l)).Nodup := by
  induction qs with
  | nil => intro l h; simpa using h
  | cons q qs ih =>
    intro l h
    rw [List.foldl_cons]
    exact ih _ (addKeyStep_nodup q h)

theorem foldl_addKeyStep_all (qs : List Package) :
    ∀ (l : List (String × Package)),
      l.all (fun kv => kv.2.isValid) = true →
      (∀ q ∈ qs, q.isValid = true) →
      (qs.foldl addKeyStep l).all (fun kv => kv.2.isValid) = true := by
  induction qs with
  | nil => intro l h _; simpa using h
  | cons q qs ih =>
    intro l h hq
    rw [List.foldl_cons]
    exact ih _ (addKeyStep_all _ h (hq q (List.mem_cons_self q qs)))
      (fun x hx => hq x (List.mem_cons_of_mem q hx))

theorem handlePkgEvent_no_ready (r : Repository) (e : PkgEvent) :
    countReady (r.handlePkgEvent e).2 = 0 := by
  cases e with
  | created q =>
    cases hq : hget r.packages (jsKey q.guid) <;>
      simp [Repository.handlePkgEvent, Repository.addPkg, hq, countReady]
  | missingReq q =>
    simp only [Repository.handlePkgEvent, Repository.onPkgError]
    simp [countReady]
  | updated q => simp [Repository.handlePkgEvent, countReady]

theorem countReady_append (a b : List RepoEvent) :
    countReady (a ++ b) = countReady a + countReady b := by
  simp [countReady, List.countP_append]

theorem handlePkgEvents_no_ready (es : List PkgEvent) : ∀ (r : Repository),
    countReady (r.handlePkgEvents es).2 = 0 := by
  induction es with
  | nil => intro r; simp [Repository.handlePkgEvents, countReady]
  | cons e es ih =>
    intro r
    rw [handlePkgEvents_step]
    simp only [countReady_append]
    rw [handlePkgEvent_no_ready, ih]

theorem handlePkgEvents_added (es : List PkgEvent) : ∀ (r : Repository)
    (p : Package), RepoEvent.packageAdded p ∈ (r.handlePkgEvents es).2 →
    p ∈ createdOf es := by
  induction es with
  | nil => intro r p h; simp [Repository.handlePkgEvents] at h
  | cons e es ih =>
    intro r p h
    rw [handlePkgEvents_step] at h
    rcases List.mem_append.mp h with h1 | h1
    · cases e with
      | created q =>
        cases hq : hget r.packages (jsKey q.guid) <;>
          rw [show r.handlePkgEvent (PkgEvent.created q) = r.addPkg q from rfl] at h1 <;>
          simp [Repository.addPkg, hq] at h1
        rw [createdOf_cons]
        simp [h1]
      | missingReq q =>
        rw [show r.handlePkgEvent (PkgEvent.missingReq q) = r.onPkgError q from rfl] at h1
        simp only [Repository.onPkgError] at h1
        simp at h1
      | updated q =>
        simp [Repository.handlePkgEvent] at h1
    · have := ih _ _ h1
      rw [createdOf_cons]
      exact List.mem_append_right _ this

theorem handlePkgEvents_dup (es : List PkgEvent) : ∀ (r : Repository)
    (q : Package), q ∈ createdOf es →
    jsKey q.guid ∈ keysOf r.packages →
    ∃ x, RepoEvent.errorDuplicate x ∈ (r.handlePkgEvents es).2 := by
  induction es with
  | nil => intro r q h _; simp [createdOf] at h
  | cons e es ih =>
    intro r q hmem hkey
    rw [handlePkgEvents_step]
    rw [createdOf_cons] at hmem
    rcases List.mem_append.mp hmem with h1 | h1
    · cases e with
      | created q0 =>
        simp at h1
        subst h1
        rcases hget_some_of_mem_keys hkey with ⟨v, hv⟩
        refine ⟨q, List.mem_append_left _ ?_⟩
        rw [show r.handlePkgEvent (PkgEvent.created q) = r.addPkg q from rfl]
        simp [Repository.addPkg, hv]
      | missingReq q0 => simp at h1
      | updated q0 => simp at h1
    · have hkey2 : jsKey q.guid ∈ keysOf (r.handlePkgEvent e).1.packages := by
        rw [(handlePkgEvent_spec r e).1]
        exact foldl_addKeyStep_keys_superset _ _ _ hkey
      rcases ih _ _ h1 hkey2 with ⟨x, hx⟩
      exact ⟨x, List.mem_append_right _ hx⟩

theorem walkPkgDir_ok {r : Repository} {re : RegexEngine} {fuel : Nat}
    {fs : FSNode} {now : Nat} {c : FPath} {r2 : Repository}
    {e2 : List RepoEvent}
    (h : r.walkPkgDir re fuel fs now c = ScanOutcome.ok r2 e2) :
    ∃ p4 evts,
      (Package.create r.dir c).walk re fuel fs now r.configParseRules =
        WalkOutcome.completes p4 evts ∧
      (r.handlePkgEvents evts).1 = r2 ∧ (r.handlePkgEvents evts).2 = e2 := by
  simp only [Repository.walkPkgDir] at h
  split at h
  · cases h
  · cases h
  · rename_i p4 evts hw
    cases h
    exact ⟨p4, evts, hw, rfl, rfl⟩

theorem ppq_cons_ok {re : RegexEngine} {fuel : Nat} {fs : FSNode} {now : Nat}
    {c : FPath} {rest : List FPath} {r r2 : Repository} {e : List RepoEvent}
    (h : Repository.processWalkQueue re fuel fs now (c :: rest) r =
      ScanOutcome.ok r2 e) :
    ∃ rMid eMid r3 e3,
      (if rest.isEmpty then fireEmptied now { r with walkQueue := rest }
       else ({ r with walkQueue := rest }, [])).1.walkPkgDir re fuel fs now c =
        ScanOutcome.ok rMid eMid ∧
      Repository.processWalkQueue re fuel fs now rest rMid =
        ScanOutcome.ok r3 e3 ∧
      r2 = r3 ∧
      e = (if rest.isEmpty then fireEmptied now { r with walkQueue := rest }
           else ({ r with walkQueue := rest }, [])).2 ++ eMid ++ e3 := by
  simp only [Repository.processWalkQueue] at h
  cases hw : (if rest.isEmpty then fireEmptied now { r with walkQueue := rest }
      else ({ r with walkQueue := rest }, [])).1.walkPkgDir re fuel fs now c with
  | diverges =>
    simp only [hw] at h
    cases h
  | throws e0 =>
    simp only [hw] at h
    cases h
  | ok rMid eMid =>
    simp only [hw] at h
    cases hp : Repository.processWalkQueue re fuel fs now rest rMid with
    | diverges =>
      simp only [hp] at h
      cases h
    | throws e0 =>
      simp only [hp] at h
      cases h
    | ok r3 e3 =>
      simp only [hp] at h
      injection h with h1 h2
      exact ⟨rMid, eMid, r3, e3, rfl, hp, h1.symm, h2.symm⟩

theorem queueCreated_cons (re : RegexEngine) (fuel : Nat) (fs : FSNode)
    (now : Nat) (dir : FPath) (rules : List (String × Rule)) (c : FPath)
    (cs : List FPath) :
    queueCreated re fuel fs now dir rules (c :: cs) =
      candCreated re fuel fs now dir rules c ++
        queueCreated re fuel fs now dir rules cs := rfl

theorem feStep_spec (now : Nat) (r : Repository) (rest : List FPath) :
    (if rest.isEmpty then fireEmptied now { r with walkQueue := rest }
     else ({ r with walkQueue := rest }, [])).1.packages = r.packages ∧
    (if rest.isEmpty then fireEmptied now { r with walkQueue := rest }
     else ({ r with walkQueue := rest }, [])).1.invalidPackages = r.invalidPackages ∧
    (if rest.isEmpty then fireEmptied now { r with walkQueue := rest }
     else ({ r with walkQueue := rest }, [])).1.dir = r.dir ∧
    (if rest.isEmpty then fireEmptied now { r with walkQueue := rest }
     else ({ r with walkQueue := rest }, [])).1.configFileName = r.configFileName ∧
    (if rest.isEmpty then fireEmptied now { r with walkQueue := rest }
     else ({ r with walkQueue := rest }, [])).1.configParseRules = r.configParseRules ∧
    (if rest.isEmpty then fireEmptied now { r with walkQueue := rest }
     else ({ r with walkQueue := rest }, [])).1.walkQueue = rest := by
  cases rest with
  | nil =>
    have h := fireEmptied_spec now { r with walkQueue := ([] : List FPath) }
    simp only [List.isEmpty_nil, if_pos]
    exact ⟨h.1, h.2.1, h.2.2.1, h.2.2.2.1, h.2.2.2.2.1, h.2.2.2.2.2⟩
  | cons x xs =>
    simp

theorem ppq_main (re : RegexEngine) (fuel : Nat) (fs : FSNode) (now : Nat)
    (cs : List FPath) : ∀ (r r2 : Repository) (e : List RepoEvent),
    Repository.processWalkQueue re fuel fs now cs r = ScanOutcome.ok r2 e →
    r2.packages = (queueCreated re fuel fs now r.dir r.configParseRules cs).foldl
        addKeyStep r.packages ∧
    r2.dir = r.dir ∧
    r2.configFileName = r.configFileName ∧
    r2.configParseRules = r.configParseRules ∧
    (cs = [] → r2 = r ∧ e = []) ∧
    (cs ≠ [] → r2.walkQueue = []) := by
  induction cs with
  | nil =>
    intro r r2 e h
    simp only [Repository.processWalkQueue] at h
    injection h with h1 h2
    subst h1
    subst h2
    refine ⟨by simp [queueCreated, catLists], rfl, rfl, rfl, fun _ => ⟨rfl, rfl⟩, ?_⟩
    intro hne
    exact absurd rfl hne
  | cons c rest ih =>
    intro r r2 e h
    rcases ppq_cons_ok h with ⟨rMid, eMid, r3, e3, hw, hp, hr2, he⟩
    have hfe := feStep_spec now r rest
    rcases walkPkgDir_ok hw with ⟨p4, evts, hwalk, hmid1, hmid2⟩
    rw [hfe.2.2.1, hfe.2.2.2.2.1] at hwalk
    have hcand : candCreated re fuel fs now r.dir r.configParseRules c =
        createdOf evts := by
      unfold candCreated
      rw [hwalk]
      rfl
    have hhe := handlePkgEvents_spec evts
      (if rest.isEmpty then fireEmptied now { r with walkQueue := rest }
       else ({ r with walkQueue := rest }, [])).1
    have hmidPkgs : rMid.packages =
        (candCreated re fuel fs now r.dir r.configParseRules c).foldl
          addKeyStep r.packages := by
      rw [← hmid1, hhe.1, hfe.1, hcand]
    have hmidDir : rMid.dir = r.dir := by
      rw [← hmid1, hhe.2.1, hfe.2.2.1]
    have hmidCfg : rMid.configFileName = r.configFileName := by
      rw [← hmid1, hhe.2.2.1, hfe.2.2.2.1]
    have hmidRules : rMid.configParseRules = r.configParseRules := by
      rw [← hmid1, hhe.2.2.2.1, hfe.2.2.2.2.1]
    have hmidQueue : rMid.walkQueue = rest := by
      rw [← hmid1, hhe.2.2.2.2.1, hfe.2.2.2.2.2]
    have ihh := ih rMid r3 e3 hp
    subst hr2
    refine ⟨?_, ihh.2.1.trans hmidDir, ihh.2.2.1.trans hmidCfg,
      ihh.2.2.2.1.trans hmidRules, ?_, ?_⟩
    · rw [ihh.1, hmidDir, hmidRules, hmidPkgs, queueCreated_cons,
        List.foldl_append]
    · intro hcs
      exact absurd hcs (by simp)
    · intro _
      cases hrest : rest with
      | nil =>
        have := (ihh.2.2.2.2.1 hrest).1
        rw [this, hmidQueue, hrest]
      | cons y ys =>
        exact ihh.2.2.2.2.2 (by simp [hrest])

theorem runEH_true (now : Nat) (n : Nat) : ∀ (r : Repository),
    r.hasCompletedScan = true →
    (runEmptiedHandlers now n r).2 = [] ∧
    (runEmptiedHandlers now n r).1.hasCompletedScan = true ∧
    (runEmptiedHandlers now n r).1.lastscan =
      (if n = 0 then r.lastscan else some now) := by
  induction n with
  | zero => intro r h; simp [runEmptiedHandlers, h]
  | succ k ih =>
    intro r h
    have hstep : runEmptiedHandlers now (k + 1) r =
        ((runEmptiedHandlers now k (Repository.onWalkQueueEmptied now r).1).1,
         (Repository.onWalkQueueEmptied now r).2 ++
           (runEmptiedHandlers now k (Repository.onWalkQueueEmptied now r).1).2) := rfl
    rw [hstep]
    have h1 : (Repository.onWalkQueueEmptied now r).2 = [] := by
      simp [Repository.onWalkQueueEmptied, h]
    have h2 : (Repository.onWalkQueueEmptied now r).1.hasCompletedScan = true := by
      simp [Repository.onWalkQueueEmptied]
    have h3 : (Repository.onWalkQueueEmptied now r).1.lastscan = some now := by
      simp [Repository.onWalkQueueEmptied]
    have ht := ih _ h2
    refine ⟨?_, ht.2.1, ?_⟩
    · rw [h1, ht.1]
      rfl
    · rw [ht.2.2, h3]
      simp

theorem runEH_false (now : Nat) (k : Nat) (r : Repository)
    (h : r.hasCompletedScan = false) :
    (runEmptiedHandlers now (k + 1) r).2 = [RepoEvent.ready] ∧
    (runEmptiedHandlers now (k + 1) r).1.hasCompletedScan = true ∧
    (runEmptiedHandlers now (k + 1) r).1.lastscan = some now := by
  have hstep : runEmptiedHandlers now (k + 1) r =
      ((runEmptiedHandlers now k (Repository.onWalkQueueEmptied now r).1).1,
       (Repository.onWalkQueueEmptied now r).2 ++
         (runEmptiedHandlers now k (Repository.onWalkQueueEmptied now r).1).2) := rfl
  rw [hstep]
  have h1 : (Repository.onWalkQueueEmptied now r).2 = [RepoEvent.ready] := by
    simp [Repository.onWalkQueueEmptied, h]
  have h2 : (Repository.onWalkQueueEmptied now r).1.hasCompletedScan = true := by
    simp [Repository.onWalkQueueEmptied]
  have h3 : (Repository.onWalkQueueEmptied now r).1.lastscan = some now := by
    simp [Repository.onWalkQueueEmptied]
  have ht := runEH_true now k _ h2
  refine ⟨?_, ht.2.1, ?_⟩
  · rw [h1, ht.1]
    rfl
  · rw [ht.2.2, h3]
    simp

theorem fireEmptied_ready (now : Nat) (r : Repository) :
    countReady (fireEmptied now r).2 ≤ 1 ∧
    (r.hasCompletedScan = true →
      countReady (fireEmptied now r).2 = 0 ∧
      (fireEmptied now r).1.hasCompletedScan = true) ∧
    (countReady (fireEmptied now r).2 = 1 →
      (fireEmptied now r).1.hasCompletedScan = true) ∧
    (1 ≤ r.emptiedListeners →
      (fireEmptied now r).1.lastscan = some now ∧
      (fireEmptied now r).1.hasCompletedScan = true) := by
  unfold fireEmptied
  cases hn : r.emptiedListeners with
  | zero =>
    simp [runEmptiedHandlers, countReady]
  | succ k =>
    by_cases hflag : r.hasCompletedScan = true
    · have ht := runEH_true now (k + 1) { r with emptiedListeners := 0 }
        (by simpa using hflag)
      rw [ht.1]
      refine ⟨by simp [countReady], fun _ => ⟨by simp [countReady], ht.2.1⟩,
        fun _ => ht.2.1, fun _ => ⟨?_, ht.2.1⟩⟩
      rw [ht.2.2]
      simp
    · have hflag2 : r.hasCompletedScan = false := by simpa using hflag
      have ht := runEH_false now k { r with emptiedListeners := 0 }
        (by simpa using hflag2)
      rw [ht.1]
      refine ⟨by simp [countReady], ?_, fun _ => ht.2.1,
        fun _ => ⟨ht.2.2, ht.2.1⟩⟩
      intro hc
      rw [hflag2] at hc
      cases hc

theorem countReady_nil : countReady ([] : List RepoEvent) = 0 := rfl

theorem ppq_ready (re : RegexEngine) (fuel : Nat) (fs : FSNode) (now : Nat)
    (cs : List FPath) : ∀ (r r2 : Repository) (e : List RepoEvent),
    Repository.processWalkQueue re fuel fs now cs r = ScanOutcome.ok r2 e →
    countReady e ≤ 1 ∧
    (r.hasCompletedScan = true → countReady e = 0 ∧ r2.hasCompletedScan = true) ∧
    (countReady e = 1 → r2.hasCompletedScan = true) ∧
    (cs ≠ [] → 1 ≤ r.emptiedListeners →
      r2.lastscan = some now ∧ r2.hasCompletedScan = true) := by
  induction cs with
  | nil =>
    intro r r2 e h
    simp only [Repository.processWalkQueue] at h
    injection h with h1 h2
    subst h1
    subst h2
    refine ⟨by simp [countReady], fun hf => ⟨by simp [countReady], hf⟩, ?_, ?_⟩
    · intro hc
      simp [countReady] at hc
    · intro hne
      exact absurd rfl hne
  | cons c rest ih =>
    intro r r2 e h
    rcases ppq_cons_ok h with ⟨rMid, eMid, r3, e3, hw, hp, hr2, he⟩
    rcases walkPkgDir_ok hw with ⟨p4, evts, hwalk, hmid1, hmid2⟩
    have hemid : countReady eMid = 0 := by
      rw [← hmid2]
      exact handlePkgEvents_no_ready evts _
    have hhe := handlePkgEvents_spec evts
      (if rest.isEmpty then fireEmptied now { r with walkQueue := rest }
       else ({ r with walkQueue := rest }, [])).1
    cases rest with
    | nil =>
      have hfeEq : (if ([] : List FPath).isEmpty then
          fireEmptied now { r with walkQueue := ([] : List FPath) }
          else ({ r with walkQueue := ([] : List FPath) }, [])) =
          fireEmptied now { r with walkQueue := ([] : List FPath) } := rfl
      rw [hfeEq] at hhe he
      simp only [Repository.processWalkQueue] at hp
      injection hp with hp1 hp2
      have hfr := fireEmptied_ready now { r with walkQueue := ([] : List FPath) }
      have hMidFlag : r3.hasCompletedScan =
          (fireEmptied now { r with walkQueue := ([] : List FPath) }).1.hasCompletedScan := by
        rw [← hp1, ← hmid1]
        exact hhe.2.2.2.2.2.1
      have hMidLast : r3.lastscan =
          (fireEmptied now { r with walkQueue := ([] : List FPath) }).1.lastscan := by
        rw [← hp1, ← hmid1]
        exact hhe.2.2.2.2.2.2.1
      have hce : countReady e =
          countReady (fireEmptied now { r with walkQueue := ([] : List FPath) }).2 := by
        rw [he, ← hp2, countReady_append, countReady_append, hemid, countReady_nil]
        omega
      rw [hr2]
      refine ⟨by rw [hce]; exact hfr.1, ?_, ?_, ?_⟩
      · intro hf
        have h4 := hfr.2.1 hf
        exact ⟨by rw [hce]; exact h4.1, by rw [hMidFlag]; exact h4.2⟩
      · intro hc
        rw [hce] at hc
        rw [hMidFlag]
        exact hfr.2.2.1 hc
      · intro _ hl
        have h4 := hfr.2.2.2 hl
        exact ⟨by rw [hMidLast]; exact h4.1, by rw [hMidFlag]; exact h4.2⟩
    | cons c2 cs2 =>
      have hfeEq : (if (c2 :: cs2).isEmpty then
          fireEmptied now { r with walkQueue := c2 :: cs2 }
          else ({ r with walkQueue := c2 :: cs2 }, [])) =
          ({ r with walkQueue := c2 :: cs2 }, ([] : List RepoEvent)) := rfl
      rw [hfeEq] at hhe he
      have hMidFlag : rMid.hasCompletedScan = r.hasCompletedScan := by
        rw [← hmid1]
        exact hhe.2.2.2.2.2.1
      have hMidLs : rMid.emptiedListeners = r.emptiedListeners := by
        rw [← hmid1]
        exact hhe.2.2.2.2.2.2.2
      have iht := ih rMid r3 e3 hp
      have hce : countReady e = countReady e3 := by
        rw [he, countReady_append, countReady_append, hemid, countReady_nil]
        omega
      rw [hr2, hce]
      refine ⟨iht.1, ?_, ?_, ?_⟩
      · intro hf
        exact iht.2.1 (by rw [hMidFlag]; exact hf)
      · exact iht.2.2.1
      · intro _ hl
        exact iht.2.2.2 (by simp) (by rw [hMidLs]; exact hl)

theorem populate_events {re : RegexEngine} {fs : FSNode} {dir : FPath}
    {filter : String} {x : RepoEvent} (h : x ∈ (populate re fs dir filter).2) :
    x = RepoEvent.errorFs := by
  unfold populate at h
  split at h
  · simp at h
  · simpa using h

theorem populate_no_ready (re : RegexEngine) (fs : FSNode) (dir : FPath)
    (filter : String) : countReady (populate re fs dir filter).2 = 0 := by
  unfold populate
  split <;> simp [countReady]

theorem scan_ok_elim {r r2 : Repository} {re : RegexEngine} {fuel : Nat}
    {fs : FSNode} {now : Nat} {e : List RepoEvent}
    (h : r.scan re fuel fs now = ScanOutcome.ok r2 e) :
    ∃ e3, Repository.processWalkQueue re fuel fs now
        (r.walkQueue ++ (populate re fs r.dir r.walkFilter).1)
        { r with
          emptiedListeners := r.emptiedListeners + 1,
          walkQueue := r.walkQueue ++ (populate re fs r.dir r.walkFilter).1 } =
      ScanOutcome.ok r2 e3 ∧
    e = RepoEvent.scanning :: ((populate re fs r.dir r.walkFilter).2 ++ e3) := by
  simp only [Repository.scan] at h
  split at h
  · rename_i r3 e3 hp
    injection h with h1 h2
    exact ⟨e3, by rw [h1] at hp; exact hp, h2.symm⟩
  · rename_i o hno
    exact absurd h (hno r2 e)

theorem scan_main {r r2 : Repository} {re : RegexEngine} {fuel : Nat}
    {fs : FSNode} {now : Nat} {e : List RepoEvent}
    (h : r.scan re fuel fs now = ScanOutcome.ok r2 e) :
    r2.packages = (queueCreated re fuel fs now r.dir r.configParseRules
        (r.walkQueue ++ (populate re fs r.dir r.walkFilter).1)).foldl
        addKeyStep r.packages ∧
    r2.dir = r.dir ∧
    r2.configFileName = r.configFileName ∧
    r2.configParseRules = r.configParseRules ∧
    r2.walkQueue = [] := by
  rcases scan_ok_elim h with ⟨e3, hp, he⟩
  have hm := ppq_main re fuel fs now
    (r.walkQueue ++ (populate re fs r.dir r.walkFilter).1) _ _ _ hp
  refine ⟨hm.1, hm.2.1, hm.2.2.1, hm.2.2.2.1, ?_⟩
  cases hcs : r.walkQueue ++ (populate re fs r.dir r.walkFilter).1 with
  | nil =>
    have h5 := (hm.2.2.2.2.1 hcs).1
    rw [h5, hcs]
  | cons y ys =>
    exact hm.2.2.2.2.2 (by rw [hcs]; simp)

theorem scan_ready {r r2 : Repository} {re : RegexEngine} {fuel : Nat}
    {fs : FSNode} {now : Nat} {e : List RepoEvent}
    (h : r.scan re fuel fs now = ScanOutcome.ok r2 e) :
    countReady e ≤ 1 ∧
    (r.hasCompletedScan = true → countReady e = 0 ∧ r2.hasCompletedScan = true) ∧
    (countReady e = 1 → r2.hasCompletedScan = true) ∧
    (r.walkQueue ++ (populate re fs r.dir r.walkFilter).1 ≠ [] →
      r2.lastscan = some now ∧ r2.hasCompletedScan = true) := by
  rcases scan_ok_elim h with ⟨e3, hp, he⟩
  have hr := ppq_ready re fuel fs now
    (r.walkQueue ++ (populate re fs r.dir r.walkFilter).1) _ _ _ hp
  have hce : countReady e = countReady e3 := by
    rw [he]
    have : countReady (RepoEvent.scanning ::
        ((populate re fs r.dir r.walkFilter).2 ++ e3)) =
        countReady ((populate re fs r.dir r.walkFilter).2 ++ e3) := by
      simp [countReady]
    rw [this, countReady_append, populate_no_ready]
    omega
  rw [hce]
  refine ⟨hr.1, hr.2.1, hr.2.2.1, ?_⟩
  intro hne
  exact hr.2.2.2 hne (by simp)

theorem runScans_ready (re : RegexEngine) (fuel : Nat)
    (l : List (FSNode × Nat)) : ∀ (r r2 : Repository) (evts : List RepoEvent),
    runScans re fuel l r = some (r2, evts) →
    countReady evts ≤ 1 ∧
    (r.hasCompletedScan = true → countReady evts = 0) := by
  induction l with
  | nil =>
    intro r r2 evts h
    simp only [runScans] at h
    injection h with h1
    injection h1 with h2 h3
    subst h3
    exact ⟨by simp [countReady], fun _ => by simp [countReady]⟩
  | cons p rest ih =>
    intro r r2 evts h
    simp only [runScans] at h
    split at h
    · rename_i r1 e1 hscan
      split at h
      · rename_i out hrest
        injection h with h1
        injection h1 with h2 h3
        subst h3
        have hs := scan_ready hscan
        have iht := ih r1 out.1 out.2 hrest
        rw [countReady_append]
        constructor
        · by_cases hf : r.hasCompletedScan = true
          · have h4 := hs.2.1 hf
            have h5 := iht.2 h4.2
            omega
          · by_cases hc : countReady e1 = 1
            · have h4 := hs.2.2.1 hc
              have h5 := iht.2 h4
              omega
            · have h4 := hs.1
              have h5 := iht.1
              omega
        · intro hf
          have h4 := hs.2.1 hf
          have h5 := iht.2 h4.2
          omega
      · cases h
    · cases h

theorem onWalkQueueEmptied_events {now : Nat} {r : Repository} {x : RepoEvent}
    (h : x ∈ (Repository.onWalkQueueEmptied now r).2) : x = RepoEvent.ready := by
  unfold Repository.onWalkQueueEmptied at h
  by_cases hf : r.hasCompletedScan <;> simp [hf] at h
  exact h

theorem runEH_events (now : Nat) (n : Nat) : ∀ (r : Repository) (x : RepoEvent),
    x ∈ (runEmptiedHandlers now n r).2 → x = RepoEvent.ready := by
  induction n with
  | zero => intro r x h; simp [runEmptiedHandlers] at h
  | succ k ih =>
    intro r x h
    have hstep : runEmptiedHandlers now (k + 1) r =
        ((runEmptiedHandlers now k (Repository.onWalkQueueEmptied now r).1).1,
         (Repository.onWalkQueueEmptied now r).2 ++
           (runEmptiedHandlers now k (Repository.onWalkQueueEmptied now r).1).2) := rfl
    rw [hstep] at h
    rcases List.mem_append.mp h with h1 | h1
    · exact onWalkQueueEmptied_events h1
    · exact ih _ _ h1

theorem fireEmptied_events {now : Nat} {r : Repository} {x : RepoEvent}
    (h : x ∈ (fireEmptied now r).2) : x = RepoEvent.ready := by
  unfold fireEmptied at h
  exact runEH_events now _ _ _ h

theorem ppq_added (re : RegexEngine) (fuel : Nat) (fs : FSNode) (now : Nat)
    (cs : List FPath) : ∀ (r r2 : Repository) (e : List RepoEvent),
    Repository.processWalkQueue re fuel fs now cs r = ScanOutcome.ok r2 e →
    ∀ p, RepoEvent.packageAdded p ∈ e →
      p ∈ queueCreated re fuel fs now r.dir r.configParseRules cs := by
  induction cs with
  | nil =>
    intro r r2 e h p hp
    simp only [Repository.processWalkQueue] at h
    injection h with h1 h2
    subst h2
    simp at hp
  | cons c rest ih =>
    intro r r2 e h p hp
    rcases ppq_cons_ok h with ⟨rMid, eMid, r3, e3, hw, hp2, hr2, he⟩
    rcases walkPkgDir_ok hw with ⟨p4, evts, hwalk, hmid1, hmid2⟩
    have hfe := feStep_spec now r rest
    rw [hfe.2.2.1, hfe.2.2.2.2.1] at hwalk
    have hcand : candCreated re fuel fs now r.dir r.configParseRules c =
        createdOf evts := by
      unfold candCreated
      rw [hwalk]
      rfl
    rw [he] at hp
    rw [queueCreated_cons]
    rcases List.mem_append.mp hp with hp1 | hp1
    · rcases List.mem_append.mp hp1 with hp3 | hp3
      · exfalso
        cases hre : rest.isEmpty
        · rw [hre] at hp3
          simp at hp3
        · rw [hre] at hp3
          simp only [if_pos] at hp3
          have := fireEmptied_events hp3
          cases this
      · refine List.mem_append_left _ ?_
        rw [hcand]
        rw [← hmid2] at hp3
        exact handlePkgEvents_added evts _ p hp3
    · refine List.mem_append_right _ ?_
      have hhe := handlePkgEvents_spec evts
        (if rest.isEmpty then fireEmptied now { r with walkQueue := rest }
         else ({ r with walkQueue := rest }, [])).1
      have hMidDir : rMid.dir = r.dir := by
        rw [← hmid1, hhe.2.1, hfe.2.2.1]
      have hMidRules : rMid.configParseRules = r.configParseRules := by
        rw [← hmid1, hhe.2.2.2.1, hfe.2.2.2.2.1]
      have := ih rMid r3 e3 hp2 p hp1
      rw [hMidDir, hMidRules] at this
      exact this

theorem ppq_dup (re : RegexEngine) (fuel : Nat) (fs : FSNode) (now : Nat)
    (cs : List FPath) : ∀ (r r2 : Repository) (e : List RepoEvent),
    Repository.processWalkQueue re fuel fs now cs r = ScanOutcome.ok r2 e →
    ∀ q, q ∈ queueCreated re fuel fs now r.dir r.configParseRules cs →
      jsKey q.guid ∈ keysOf r.packages →
      ∃ x, RepoEvent.errorDuplicate x ∈ e := by
  induction cs with
  | nil =>
    intro r r2 e h q hq hk
    simp [queueCreated, catLists] at hq
  | cons c rest ih =>
    intro r r2 e h q hq hk
    rcases ppq_cons_ok h with ⟨rMid, eMid, r3, e3, hw, hp2, hr2, he⟩
    rcases walkPkgDir_ok hw with ⟨p4, evts, hwalk, hmid1, hmid2⟩
    have hfe := feStep_spec now r rest
    rw [hfe.2.2.1, hfe.2.2.2.2.1] at hwalk
    have hcand : candCreated re fuel fs now r.dir r.configParseRules c =
        createdOf evts := by
      unfold candCreated
      rw [hwalk]
      rfl
    have hhe := handlePkgEvents_spec evts
      (if rest.isEmpty then fireEmptied now { r with walkQueue := rest }
       else ({ r with walkQueue := rest }, [])).1
    rw [queueCreated_cons] at hq
    rw [he]
    rcases List.mem_append.mp hq with hq1 | hq1
    · rw [hcand] at hq1
      have hkfe : jsKey q.guid ∈ keysOf
          (if rest.isEmpty then fireEmptied now { r with walkQueue := rest }
           else ({ r with walkQueue := rest }, [])).1.packages := by
        rw [hfe.1]
        exact hk
      rcases handlePkgEvents_dup evts _ q hq1 hkfe with ⟨x, hx⟩
      rw [hmid2] at hx
      exact ⟨x, List.mem_append_left _ (List.mem_append_right _ hx)⟩
    · have hMidDir : rMid.dir = r.dir := by
        rw [← hmid1, hhe.2.1, hfe.2.2.1]
      have hMidRules : rMid.configParseRules = r.configParseRules := by
        rw [← hmid1, hhe.2.2.2.1, hfe.2.2.2.2.1]
      have hkMid : jsKey q.guid ∈ keysOf rMid.packages := by
        rw [← hmid1, hhe.1, hfe.1]
        exact foldl_addKeyStep_keys_superset _ _ _ hk
      have := ih rMid r3 e3 hp2 q
        (by rw [hMidDir, hMidRules]; exact hq1) hkMid
      rcases this with ⟨x, hx⟩
      exact ⟨x, List.mem_append_right _ hx⟩

theorem mem_catLists {α β : Type} (f : α → List β) (l : List α) (b : β)
    (h : b ∈ catLists f l) : ∃ a ∈ l, b ∈ f a := by
  induction l with
  | nil => simp [catLists] at h
  | cons a as ih =>
    simp only [catLists] at h
    rcases List.mem_append.mp h with h1 | h1
    · exact ⟨a, List.mem_cons_self a as, h1⟩
    · rcases ih h1 with ⟨a2, ha2, hb⟩
      exact ⟨a2, List.mem_cons_of_mem a ha2, hb⟩

theorem createdOf_mem {es : List PkgEvent} {q : Package}
    (h : q ∈ createdOf es) : PkgEvent.created q ∈ es := by
  induction es with
  | nil => simp [createdOf] at h
  | cons e es ih =>
    rw [createdOf_cons] at h
    rcases List.mem_append.mp h with h1 | h1
    · cases e with
      | created q0 =>
        simp at h1
        rw [h1]
        exact List.mem_cons_self _ _
      | missingReq q0 => simp at h1
      | updated q0 => simp at h1
    · exact List.mem_cons_of_mem _ (ih h1)

theorem candCreated_valid {re : RegexEngine} {fuel : Nat} {fs : FSNode}
    {now : Nat} {dir : FPath} {rules : List (String × Rule)} {c : FPath}
    {q : Package} (h : q ∈ candCreated re fuel fs now dir rules c) :
    q.isValid = true := by
  unfold candCreated at h
  cases hw : (Package.create dir c).walk re fuel fs now rules with
  | diverges =>
    rw [hw] at h
    simp [WalkOutcome.eventsOr, createdOf] at h
  | throws e =>
    rw [hw] at h
    simp [WalkOutcome.eventsOr, createdOf] at h
  | completes p evts =>
    rw [hw] at h
    simp only [WalkOutcome.eventsOr] at h
    exact walk_created_valid hw (createdOf_mem h)

theorem queueCreated_valid {re : RegexEngine} {fuel : Nat} {fs : FSNode}
    {now : Nat} {dir : FPath} {rules : List (String × Rule)}
    {cs : List FPath} {q : Package}
    (h : q ∈ queueCreated re fuel fs now dir rules cs) : q.isValid = true := by
  rcases mem_catLists _ _ _ h with ⟨c, _, hc⟩
  exact candCreated_valid hc

theorem queueCreated_append (re : RegexEngine) (fuel : Nat) (fs : FSNode)
    (now : Nat) (dir : FPath) (rules : List (String × Rule))
    (a b : List FPath) :
    queueCreated re fuel fs now dir rules (a ++ b) =
      queueCreated re fuel fs now dir rules a ++
        queueCreated re fuel fs now dir rules b := by
  induction a with
  | nil => rfl
  | cons c cs ih =>
    simp only [List.cons_append, queueCreated_cons, ih, List.append_assoc]

theorem candCreated_guid_inv (re : RegexEngine) (fuel : Nat) (fs : FSNode)
    (now now2 : Nat) (dir : FPath) (rules : List (String × Rule)) (c : FPath) :
    (candCreated re fuel fs now dir rules c).map (fun q => jsKey q.guid) =
    (candCreated re fuel fs now2 dir rules c).map (fun q => jsKey q.guid) := by
  unfold candCreated Package.walk
  cases hw : (Package.create dir c).walkPre re fuel fs rules with
  | diverges => rfl
  | throws e => rfl
  | done p3 =>
    by_cases hv : p3.isValid
    · by_cases hwk : p3.hasWalked
      · simp [hv, hwk, WalkOutcome.eventsOr, createdOf]
      · simp [hv, hwk, WalkOutcome.eventsOr, createdOf, jsKey]
    · simp [hv, WalkOutcome.eventsOr, createdOf]

theorem queueCreated_guid_inv (re : RegexEngine) (fuel : Nat) (fs : FSNode)
    (now now2 : Nat) (dir : FPath) (rules : List (String × Rule))
    (cs : List FPath) :
    (queueCreated re fuel fs now dir rules cs).map (fun q => jsKey q.guid) =
    (queueCreated re fuel fs now2 dir rules cs).map (fun q => jsKey q.guid) := by
  induction cs with
  | nil => rfl
  | cons c cs ih =>
    rw [queueCreated_cons, queueCreated_cons, List.map_append, List.map_append,
      ih, candCreated_guid_inv re fuel fs now now2 dir rules c]

theorem scan_added {r r2 : Repository} {re : RegexEngine} {fuel : Nat}
    {fs : FSNode} {now : Nat} {e : List RepoEvent}
    (h : r.scan re fuel fs now = ScanOutcome.ok r2 e) :
    ∀ p, RepoEvent.packageAdded p ∈ e →
      p ∈ queueCreated re fuel fs now r.dir r.configParseRules
        (r.walkQueue ++ (populate re fs r.dir r.walkFilter).1) := by
  intro p hp
  rcases scan_ok_elim h with ⟨e3, hpq, he⟩
  rw [he] at hp
  rcases List.mem_cons.mp hp with h1 | h1
  · cases h1
  rcases List.mem_append.mp h1 with h2 | h2
  · have := populate_events h2
    cases this
  · exact ppq_added re fuel fs now _ _ _ _ hpq p h2

theorem scan_dup {r r2 : Repository} {re : RegexEngine} {fuel : Nat}
    {fs : FSNode} {now : Nat} {e : List RepoEvent}
    (h : r.scan re fuel fs now = ScanOutcome.ok r2 e) :
    ∀ q, q ∈ queueCreated re fuel fs now r.dir r.configParseRules
        (r.walkQueue ++ (populate re fs r.dir r.walkFilter).1) →
      jsKey q.guid ∈ keysOf r.packages →
      ∃ x, RepoEvent.errorDuplicate x ∈ e := by
  intro q hq hk
  rcases scan_ok_elim h with ⟨e3, hpq, he⟩
  rcases ppq_dup re fuel fs now _ _ _ _ hpq q hq hk with ⟨x, hx⟩
  refine ⟨x, ?_⟩
  rw [he]
  exact List.mem_cons_of_mem _ (List.mem_append_right _ hx)

theorem parseGo_group_head_diverges (re : RegexEngine) (prop : String)
    (g rest : List (String × Rule)) :
    ∀ (fuel : Nat) (p : Package),
      parseGo re ((prop, Rule.group g) :: rest) fuel p
        ((prop, Rule.group g) :: rest) = ParseOut.outOfFuel := by
  intro fuel
  induction fuel with
  | zero =>
    intro p
    rfl
  | succ k ih =>
    intro p
    simp only [parseGo, parseStep]
    rw [ih p]

/-- The package the first demo scan indexes under A1 (the alpha
candidate's walk result). -/
def demoAlpha : Package :=
  ((Package.create [] ["alpha", "pkg.cfg"]).walk demoEngine 9 demoFs 1
    demoRules).pkgOr dummyPackage

/-- A tree whose delta package directory has no metadata file at the
probed path. -/
def c4Fs : FSNode :=
  FSNode.dirL [("delta", FSNode.dirL [("other.txt", FSNode.file ("x"))])]

/-- A rules mapping containing a nested rule group. -/
def c5Rules : List (String × Rule) :=
  [("meta", Rule.group [("name", Rule.pattern ("name: (.*)"))])]

/-- The alpha package right after its metadata file has been read. -/
def c5P1 : Package :=
  { Package.create [] ["alpha", "pkg.cfg"] with
    rawConfigContents := some ("name: Alpha\nguid: A1") }

/-- A package directory holding a file, the metadata file, and then a
subdirectory with another file, in readdir order. -/
def c6Fs : FSNode :=
  FSNode.dirL
    [("pkgdir", FSNode.dirL
      [("a.txt", FSNode.file ("1")),
       ("pkg.cfg", FSNode.file ("name: C\nguid: C6")),
       ("sub", FSNode.dirL [("b.txt", FSNode.file ("2"))])])]

/-- The c6 package after its walk. -/
def c6Pkg : Package :=
  ((Package.create [] ["pkgdir", "pkg.cfg"]).walk demoEngine 9 c6Fs 0
    demoRules).pkgOr dummyPackage

/-- A tree whose gamma package metadata lacks the name field. -/
def c7Fs : FSNode :=
  FSNode.dirL [("gamma", FSNode.dirL [("pkg.cfg", FSNode.file ("guid: G9"))])]

/-- The gamma package after its walk: extraction left name unset. -/
def c7Out : Package :=
  ((Package.create [] ["gamma", "pkg.cfg"]).walk demoEngine 9 c7Fs 5
    demoRules).pkgOr dummyPackage

/-- The entries of a tree with no file matching the configured metadata
filename. -/
def c10Entries : FSEntries :=
  entriesOf [("docs", FSNode.dirL [("readme.txt", FSNode.file ("hi"))])]

/-- A tree with no candidate metadata files. -/
def c10Fs : FSNode := FSNode.dir c10Entries

/-- Two consecutive demo scans as a run. -/
def demoRuns : Repository × List RepoEvent :=
  (runScans demoEngine 9 [(demoFs, 1), (demoFs, 2)] demoRepo).getD
    (demoRepo, [])

/-- C1: for every Repository and every scan, every Package stored in the
Repository's packages index satisfies isValid; a Package whose walk
leaves either field empty signals no created event and is therefore
never inserted into the index, so an index whose entries are all valid
stays all-valid across any completed scan. -/
theorem claim1_index_packages_all_valid (re : RegexEngine) (fuel : Nat)
    (fs : FSNode) (now : Nat) (r r2 : Repository) (evts : List RepoEvent)
    (hInv : indexAllValid r = true)
    (hScan : r.scan re fuel fs now = ScanOutcome.ok r2 evts) :
    indexAllValid r2 = true := by
  have hm := scan_main hScan
  unfold indexAllValid at hInv ⊢
  rw [hm.1]
  refine foldl_addKeyStep_all _ _ hInv ?_
  intro q hq
  exact queueCreated_valid hq

theorem claim1_witness :
    indexAllValid demoRepo = true ∧ indexAllValid demoR1 = true :=
  ⟨rfl, claim1_index_packages_all_valid demoEngine 9 demoFs 1 demoRepo demoR1
    demoE1 rfl rfl⟩

/-- C2: at most one Package per identifier occupies the index — the
identifier keys stay pairwise distinct across a completed scan — and
when a Package whose identifier is already present signals created,
_addPkg appends it to invalidPackages, signals the duplicate-identifier
error, and leaves the index (so the first-discovered entry) unchanged. -/
theorem claim2_duplicate_identifier_first_wins (re : RegexEngine) (fuel : Nat)
    (fs : FSNode) (now : Nat) (r r2 : Repository) (evts : List RepoEvent)
    (pkg q : Package) :
    (hget r.packages (jsKey pkg.guid) = some q →
      r.addPkg pkg = ({ r with invalidPackages := r.invalidPackages ++ [pkg] },
        [RepoEvent.errorDuplicate pkg])) ∧
    ((keysOf r.packages).Nodup →
      r.scan re fuel fs now = ScanOutcome.ok r2 evts →
      (keysOf r2.packages).Nodup) := by
  constructor
  · intro h
    simp only [Repository.addPkg, h]
  · intro hnd hscan
    have hm := scan_main hscan
    unfold keysOf at hnd ⊢
    rw [hm.1]
    exact foldl_addKeyStep_nodup _ _ hnd

theorem claim2_witness :
    hget demoR1.packages (jsKey demoAlpha.guid) = some demoAlpha ∧
    demoR1.addPkg demoAlpha =
      ({ demoR1 with invalidPackages := demoR1.invalidPackages ++ [demoAlpha] },
       [RepoEvent.errorDuplicate demoAlpha]) ∧
    (keysOf demoRepo.packages).Nodup ∧
    (keysOf demoR1.packages).Nodup :=
  ⟨rfl,
   (claim2_duplicate_identifier_first_wins demoEngine 9 demoFs 2 demoR1
     demoR2 demoE2 demoAlpha demoAlpha).1 rfl,
   by decide,
   (claim2_duplicate_identifier_first_wins demoEngine 9 demoFs 1 demoRepo
     demoR1 demoE1 demoAlpha demoAlpha).2 (by decide) rfl⟩

/-- C4: code bug — doesPathExist runs reject(false) when fs.stat errors,
so walking a Package whose metadata file is absent does not treat the
read as a no-op: the awaited rejection escapes and walk throws, instead
of proceeding with extraction and listing as the spec describes. -/
theorem claim4_walk_throws_on_absent_metadata :
    doesPathExist c4Fs ["delta", "pkg.cfg"] = Except.error false ∧
    (Package.create [] ["delta", "pkg.cfg"]).walk demoEngine 9 c4Fs 0
      demoRules = WalkOutcome.throws JsErr.statRejectedFalse :=
  ⟨rfl, rfl⟩

/-- C5: code bug — the nested-rule-group branch of _parse recurses on
the whole rules mapping instead of the nested group, so extraction never
terminates for any mapping containing a rule group: at every fuel the
parse is still unfinished, and the walk of a package under such a
configuration never completes. -/
theorem claim5_nested_rules_never_terminate :
    (∀ (fuel : Nat) (p : Package),
      parseGo demoEngine c5Rules fuel p c5Rules = ParseOut.outOfFuel) ∧
    (∀ fuel : Nat,
      (Package.create [] ["alpha", "pkg.cfg"]).walk demoEngine fuel demoFs 0
        c5Rules = WalkOutcome.diverges) := by
  have h1 : ∀ (fuel : Nat) (p : Package),
      parseGo demoEngine c5Rules fuel p c5Rules = ParseOut.outOfFuel :=
    fun fuel p => parseGo_group_head_diverges demoEngine ("meta")
      [("name", Rule.pattern ("name: (.*)"))] [] fuel p
  refine ⟨h1, ?_⟩
  intro fuel
  have hrc : (Package.create [] ["alpha", "pkg.cfg"]).readConfigFile demoFs =
      Except.ok c5P1 := rfl
  have hpre : (Package.create [] ["alpha", "pkg.cfg"]).walkPre demoEngine fuel
      demoFs c5Rules = WalkPre.diverges := by
    simp only [Package.walkPre, hrc]
    rw [h1 fuel c5P1]
  simp only [Package.walk, hpre]

/-- C6: code bug — _search resets this.items to the empty list at the
start of every recursive invocation, so files listed before a
subdirectory is descended into are dropped: in the c6 tree the files
a.txt and pkg.cfg pass the filter but are missing from items after the
walk, which ends as just the subdirectory's file. -/
theorem claim6_search_drops_earlier_files :
    c6Pkg.items = [["sub", "b.txt"]] ∧
    demoEngine.test (joinP ["pkgdir", "a.txt"]) (".+") = true ∧
    ["a.txt"] ∉ c6Pkg.items ∧ ["pkg.cfg"] ∉ c6Pkg.items := by
  have h1 : c6Pkg.items = [["sub", "b.txt"]] := rfl
  refine ⟨h1, rfl, ?_, ?_⟩ <;> rw [h1] <;> simp

/-- C7: a Package whose extraction leaves name or identifier empty emits
exactly one missing-requirement error carrying itself, no created or
updated signal, and no lastWalkTime update; the owning Repository's
handler records it in invalidPackages, leaves the index untouched, and
re-signals the error. -/
theorem claim7_missing_requirement (re : RegexEngine) (fuel : Nat)
    (fs : FSNode) (now : Nat) (rules : List (String × Rule))
    (p p2 : Package) (evts : List PkgEvent) (r : Repository)
    (hw : p.walk re fuel fs now rules = WalkOutcome.completes p2 evts)
    (hv : p2.isValid = false) :
    evts = [PkgEvent.missingReq p2] ∧
    p2.lastWalk = p.lastWalk ∧
    p2.hasWalked = p.hasWalked ∧
    (r.handlePkgEvents evts).1.packages = r.packages ∧
    (r.handlePkgEvents evts).1.invalidPackages = r.invalidPackages ++ [p2] ∧
    (r.handlePkgEvents evts).2 = [RepoEvent.errorMissing p2] := by
  rcases walk_completes_cases hw with ⟨p3, hpre, hcase⟩
  rcases hcase with ⟨hv3, hp2, hevts⟩ | ⟨hv3, _, hp2, hevts⟩ | ⟨hv3, _, hp2, hevts⟩
  · subst hp2
    have hflags := walkPre_done_flags p re fuel fs rules hpre
    subst hevts
    refine ⟨rfl, hflags.1, hflags.2, ?_, ?_, ?_⟩ <;>
      simp [Repository.handlePkgEvents, Repository.handlePkgEvent,
        Repository.onPkgError, hv3]
  · exfalso
    rw [hp2, isValid_update_time, hv3] at hv
    cases hv
  · exfalso
    rw [hp2, isValid_update_walked, hv3] at hv
    cases hv

theorem claim7_witness :
    ((Package.create [] ["gamma", "pkg.cfg"]).walk demoEngine 9 c7Fs 5
      demoRules = WalkOutcome.completes c7Out [PkgEvent.missingReq c7Out]) ∧
    c7Out.isValid = false ∧
    ([PkgEvent.missingReq c7Out] = [PkgEvent.missingReq c7Out] ∧
     c7Out.lastWalk = (Package.create [] ["gamma", "pkg.cfg"]).lastWalk ∧
     c7Out.hasWalked = (Package.create [] ["gamma", "pkg.cfg"]).hasWalked ∧
     (demoRepo.handlePkgEvents [PkgEvent.missingReq c7Out]).1.packages =
       demoRepo.packages ∧
     (demoRepo.handlePkgEvents [PkgEvent.missingReq c7Out]).1.invalidPackages =
       demoRepo.invalidPackages ++ [c7Out] ∧
     (demoRepo.handlePkgEvents [PkgEvent.missingReq c7Out]).2 =
       [RepoEvent.errorMissing c7Out]) :=
  ⟨rfl, rfl,
   claim7_missing_requirement demoEngine 9 c7Fs 5 demoRules
     (Package.create [] ["gamma", "pkg.cfg"]) c7Out
     [PkgEvent.missingReq c7Out] demoRepo rfl rfl⟩

/-- C8: code bug — the Repository announces an indexed package under the
event name "packageAdded", but addRepository subscribes the manager's
_onPackageAdded handler to the name "addedPackage"; the two demo
packages are announced yet the manager's dispatch re-emits only the
repoReady event and never a manager-level packageAdded. -/
theorem claim8_manager_package_added_never_reemitted :
    (demoE1.filter (fun e => e.emitName == ("packageAdded"))).length = 2 ∧
    (managerSubscriptions.contains ("packageAdded")) = false ∧
    (∀ p : Package, managerDispatch (RepoEvent.packageAdded p) = []) ∧
    catLists managerDispatch demoE1 = [MgrEvent.repoReady] :=
  ⟨rfl, rfl, fun _ => rfl, rfl⟩

/-- C10: when the tree walk pushes no candidate paths and the queue was
already empty, the drain loop never runs, so the queue's emptied signal
never fires: scan completes normally having emitted only "scanning",
the one-shot listener stays armed, and hasCompletedScan, lastscan and
the packages index are all left untouched. -/
theorem claim10_no_candidates_never_ready (re : RegexEngine) (fuel : Nat)
    (fs : FSNode) (now : Nat) (r : Repository)
    (entries : FSEntries)
    (hq : r.walkQueue = [])
    (hd : fs.lookup r.dir = some (FSNode.dir entries))
    (hpop : populateEntries re r.walkFilter entries r.dir = []) :
    r.scan re fuel fs now =
      ScanOutcome.ok { r with emptiedListeners := r.emptiedListeners + 1 }
        [RepoEvent.scanning] := by
  have hpe : populate re fs r.dir r.walkFilter = ([], []) := by
    simp only [populate, hd, hpop]
  simp only [Repository.scan, hpe, List.append_nil, hq,
    Repository.processWalkQueue]

theorem claim10_witness :
    demoRepo.walkQueue = [] ∧
    c10Fs.lookup demoRepo.dir = some (FSNode.dir c10Entries) ∧
    populateEntries demoEngine demoRepo.walkFilter c10Entries demoRepo.dir
      = [] ∧
    demoRepo.scan demoEngine 9 c10Fs 7 =
      ScanOutcome.ok
        { demoRepo with emptiedListeners := demoRepo.emptiedListeners + 1 }
        [RepoEvent.scanning] :=
  ⟨rfl, rfl, rfl,
   claim10_no_candidates_never_ready demoEngine 9 c10Fs 7 demoRepo c10Entries
     rfl rfl rfl⟩

/-- C3 counterexample: re-scanning the unchanged demo tree is NOT
treated as an update of the existing entries — the second scan completes
with duplicate-identifier errors among its events and routes both
freshly walked packages to invalidPackages, while the first scan had
produced none. -/
theorem claim3_counterexample :
    demoR1.scan demoEngine 9 demoFs 2 = ScanOutcome.ok demoR2 demoE2 ∧
    demoE2.any (fun e => match e with
      | RepoEvent.errorDuplicate _ => true
      | _ => false) = true ∧
    demoR2.invalidPackages.length = 2 ∧
    demoR1.invalidPackages.length = 0 :=
  ⟨rfl, rfl, rfl, rfl⟩

/-- C3 amended: re-scanning an unchanged tree preserves the identifier
set of the packages index and never replaces an indexed entry, but each
reappearing identifier is treated as a fresh collision — every package
the first scan announced leads to a duplicate-identifier error in the
second scan (there is no update path, since every candidate is walked
as a fresh Package instance). -/
theorem claim3_rescan_amended (re : RegexEngine) (fuel : Nat) (fs : FSNode)
    (now now2 : Nat) (r r1 r2 : Repository) (e1 e2 : List RepoEvent)
    (hq0 : r.walkQueue = [])
    (h1 : r.scan re fuel fs now = ScanOutcome.ok r1 e1)
    (h2 : r1.scan re fuel fs now2 = ScanOutcome.ok r2 e2) :
    (∀ k, k ∈ keysOf r2.packages ↔ k ∈ keysOf r1.packages) ∧
    (∀ k q, hget r1.packages k = some q → hget r2.packages k = some q) ∧
    (∀ p, RepoEvent.packageAdded p ∈ e1 →
      ∃ x, RepoEvent.errorDuplicate x ∈ e2) := by
  have hm1 := scan_main h1
  have hm2 := scan_main h2
  have hdir : r1.dir = r.dir := hm1.2.1
  have hcfg : r1.configFileName = r.configFileName := hm1.2.2.1
  have hrules : r1.configParseRules = r.configParseRules := hm1.2.2.2.1
  have hq1 : r1.walkQueue = [] := hm1.2.2.2.2
  have hfilter : r1.walkFilter = r.walkFilter := by
    unfold Repository.walkFilter
    rw [hcfg]
  have hpk2 : r2.packages =
      (queueCreated re fuel fs now2 r.dir r.configParseRules
        (populate re fs r.dir r.walkFilter).1).foldl addKeyStep r1.packages := by
    have := hm2.1
    rw [hdir, hrules, hq1, hfilter, List.nil_append] at this
    exact this
  have hpk1 : r1.packages =
      (queueCreated re fuel fs now r.dir r.configParseRules
        (populate re fs r.dir r.walkFilter).1).foldl addKeyStep r.packages := by
    have := hm1.1
    rw [hq0, List.nil_append] at this
    exact this
  refine ⟨?_, ?_, ?_⟩
  · intro k
    constructor
    · intro hk2
      rw [hpk2] at hk2
      rcases foldl_addKeyStep_keys_subset _ _ _ hk2 with h | h
      · exact h
      · rw [← queueCreated_guid_inv re fuel fs now now2 r.dir
          r.configParseRules _] at h
        rcases List.mem_map.mp h with ⟨q, hmem, hqk⟩
        rw [hpk1, ← hqk]
        exact foldl_addKeyStep_keys_mem _ _ _ hmem
    · intro hk1
      rw [hpk2]
      exact foldl_addKeyStep_keys_superset _ _ _ hk1
  · intro k q hk
    rw [hpk2]
    exact foldl_addKeyStep_hget_stable _ _ _ _ hk
  · intro p hp
    have hmem := scan_added h1 p hp
    rw [hq0, List.nil_append] at hmem
    have hkey : jsKey p.guid ∈ keysOf r1.packages := by
      rw [hpk1]
      exact foldl_addKeyStep_keys_mem _ _ _ hmem
    have hkmap : jsKey p.guid ∈
        (queueCreated re fuel fs now2 r.dir r.configParseRules
          (populate re fs r.dir r.walkFilter).1).map (fun q => jsKey q.guid) := by
      rw [← queueCreated_guid_inv re fuel fs now now2 r.dir
        r.configParseRules _]
      exact List.mem_map_of_mem _ hmem
    rcases List.mem_map.mp hkmap with ⟨q2, hq2mem, hq2k⟩
    refine scan_dup h2 q2 ?_ ?_
    · rw [hdir, hrules, hq1, hfilter, List.nil_append]
      exact hq2mem
    · rw [hq2k]
      exact hkey

theorem claim3_witness :
    demoRepo.walkQueue = [] ∧
    demoRepo.scan demoEngine 9 demoFs 1 = ScanOutcome.ok demoR1 demoE1 ∧
    demoR1.scan demoEngine 9 demoFs 2 = ScanOutcome.ok demoR2 demoE2 ∧
    (("A1" ∈ keysOf demoR2.packages ↔ "A1" ∈ keysOf demoR1.packages) ∧
     (hget demoR2.packages "A1" = some demoAlpha) ∧
     (∃ x, RepoEvent.errorDuplicate x ∈ demoE2)) :=
  ⟨rfl, rfl, rfl,
   (claim3_rescan_amended demoEngine 9 demoFs 1 2 demoRepo demoR1 demoR2
     demoE1 demoE2 rfl rfl rfl).1 "A1",
   (claim3_rescan_amended demoEngine 9 demoFs 1 2 demoRepo demoR1 demoR2
     demoE1 demoE2 rfl rfl rfl).2.1 "A1" demoAlpha rfl,
   (claim3_rescan_amended demoEngine 9 demoFs 1 2 demoRepo demoR1 demoR2
     demoE1 demoE2 rfl rfl rfl).2.2 demoAlpha (by decide)⟩

/-- C9: across a sequence of completed scans of one Repository instance
that starts before any completed scan, "ready" is signalled at most
once; once a scan has completed, a further completed scan signals no
ready at all but still records lastscan when its walk queue drains. -/
theorem claim9_ready_at_most_once (re : RegexEngine) (fuel : Nat)
    (l : List (FSNode × Nat)) (fs : FSNode) (now : Nat)
    (r rEnd r2 : Repository) (evts e2 : List RepoEvent) :
    (r.hasCompletedScan = false → runScans re fuel l r = some (rEnd, evts) →
      countReady evts ≤ 1) ∧
    (r.hasCompletedScan = true → r.scan re fuel fs now = ScanOutcome.ok r2 e2 →
      countReady e2 = 0 ∧
      (r.walkQueue ++ (populate re fs r.dir r.walkFilter).1 ≠ [] →
        r2.lastscan = some now)) := by
  constructor
  · intro _ h
    exact (runScans_ready re fuel l r rEnd evts h).1
  · intro hf h
    have hs := scan_ready h
    exact ⟨(hs.2.1 hf).1, fun hne => (hs.2.2.2 hne).1⟩

theorem claim9_witness :
    demoRepo.hasCompletedScan = false ∧
    runScans demoEngine 9 [(demoFs, 1), (demoFs, 2)] demoRepo =
      some (demoRuns.1, demoRuns.2) ∧
    countReady demoRuns.2 ≤ 1 ∧
    demoR1.hasCompletedScan = true ∧
    demoR1.scan demoEngine 9 demoFs 2 = ScanOutcome.ok demoR2 demoE2 ∧
    countReady demoE2 = 0 ∧
    demoR2.lastscan = some 2 :=
  ⟨rfl, rfl,
   (claim9_ready_at_most_once demoEngine 9 [(demoFs, 1), (demoFs, 2)] demoFs 2
     demoRepo demoRuns.1 demoR2 demoRuns.2 demoE2).1 rfl rfl,
   rfl, rfl,
   ((claim9_ready_at_most_once demoEngine 9 [(demoFs, 1), (demoFs, 2)] demoFs 2
     demoR1 demoRuns.1 demoR2 demoRuns.2 demoE2).2 rfl rfl).1,
   ((claim9_ready_at_most_once demoEngine 9 [(demoFs, 1), (demoFs, 2)] demoFs 2
     demoR1 demoRuns.1 demoR2 demoRuns.2 demoE2).2 rfl rfl).2 (by decide)⟩

end RepoPackager
